import Mathlib

/-!
Verification of the batched adaptive binary composition engine of
`src/model/treelstm.py` (classes `BinaryTreeLSTMLayer`, `SimpleLayer`,
`BinaryTreeLSTM`).

Scalars are rationals; the transcendental activations `sigmoid` and `tanh` are
parameters of the embedding (`Numerics`), since every property verified here is
either independent of their values or polynomial in their outputs.  A tensor of
shape (length, hidden) for one batch row is a `List` of vectors; the batched
forward pass maps the per-row computation over the rows, which is faithful to
the source because every tensor operation in the engine (elementwise blends,
per-row masks, per-row argmax) acts on each batch row independently.

The helper module `model/basic.py` is part of the repository but is not under
`src/`; the functions taken from it (`sequence_mask`, `dot_nd`,
`greedy_select`, `st_gumbel_softmax`) are modelled from the spec, with a doc
comment saying so on each.
-/

namespace TreeLstm

/-- A vector (the hidden dimension of one node state). -/
abbrev Vec := List ℚ

/-- The activation functions used by the compose cells, kept as parameters of
the embedding. -/
structure Numerics where
  sigmoid : ℚ → ℚ
  tanh : ℚ → ℚ

/-- Inner product along the last dimension. -/
def dot (a b : Vec) : ℚ := (List.zipWith (fun x y => x * y) a b).sum

/-- Elementwise sum of two vectors. -/
def vadd (a b : Vec) : Vec := List.zipWith (fun x y => x + y) a b

/-- A scalar (an expanded mask entry) times a vector. -/
def smul (a : ℚ) (v : Vec) : Vec := v.map (fun x => a * x)

/-- An `nn.Linear` layer: weight rows and a bias vector. -/
structure Linear where
  weight : List Vec
  bias : Vec

/-- `nn.Linear` application: one dot product per output feature, plus bias. -/
def Linear.apply (lin : Linear) (x : Vec) : Vec :=
  List.zipWith (fun w b => dot w x + b) lin.weight lin.bias

/-- `BinaryTreeLSTMLayer.__init__` (src/model/treelstm.py lines 12-19): the
hidden size and the learned affine map `comp_linear : 2H -> 5H`. -/
structure BinaryTreeLSTMLayer where
  hidden_dim : ℕ
  comp_linear : Linear

/-- `torch.chunk(v, 5, dim=2)` applied to one position: split a vector of
length `5*H` into five `H`-sized chunks. -/
def chunk5 (H : ℕ) (v : Vec) : Vec × Vec × Vec × Vec × Vec :=
  (v.take H, (v.drop H).take H, (v.drop (2 * H)).take H,
   (v.drop (3 * H)).take H, (v.drop (4 * H)).take H)

/-- One position of `BinaryTreeLSTMLayer.forward` (src/model/treelstm.py lines
25-42): gates `i, fl, fr, u, o` are the five chunks of the affine image of the
concatenated children hidden states; returns the parent `(h, c)`. -/
def BinaryTreeLSTMLayer.cell (layer : BinaryTreeLSTMLayer) (ν : Numerics)
    (hl hr cl cr : Vec) : Vec × Vec :=
  let v := layer.comp_linear.apply (hl ++ hr)
  let ch := chunk5 layer.hidden_dim v
  let i := ch.1
  let fl := ch.2.1
  let fr := ch.2.2.1
  let u := ch.2.2.2.1
  let o := ch.2.2.2.2
  let c := vadd (vadd (List.zipWith (fun cx f => cx * ν.sigmoid (f + 1)) cl fl)
                      (List.zipWith (fun cx f => cx * ν.sigmoid (f + 1)) cr fr))
                (List.zipWith (fun ux ix => ν.tanh ux * ν.sigmoid ix) u i)
  let h := List.zipWith (fun ox cx => ν.sigmoid ox * ν.tanh cx) o c
  (h, c)

/-- One batch row of the `(h, c, lens)` state triple carried by
`BinaryTreeLSTM.forward`; `c` is absent for the simple cell. -/
structure RowState where
  h : List Vec
  c : Option (List Vec)
  lens : List ℚ
  deriving DecidableEq, Repr

/-- The compose cell chosen by `cell_type` in `BinaryTreeLSTM.__init__`
(src/model/treelstm.py lines 88-92). -/
inductive ComposeCell where
  | treelstm (layer : BinaryTreeLSTMLayer)
  | simple (lin : Linear)

/-- `BinaryTreeLSTMLayer.forward` / `SimpleLayer.forward` (src/model/treelstm.py
lines 25-42 and 58-64) applied to all candidate positions of one row: the
composed parent for every adjacent pair.  In both variants the parent lens is
the direct sum `lens_l + lens_r`; the simple variant produces no cell state. -/
def ComposeCell.forward (ν : Numerics) : ComposeCell → RowState → RowState → RowState
  | .treelstm layer, l, r =>
      let cl := l.c.getD []
      let cr := r.c.getD []
      let hc := List.zipWith (fun a b => layer.cell ν a.1 b.1 a.2 b.2)
                  (l.h.zip cl) (r.h.zip cr)
      ⟨hc.map Prod.fst, some (hc.map Prod.snd),
       List.zipWith (fun x y => x + y) l.lens r.lens⟩
  | .simple lin, l, r =>
      ⟨List.zipWith (fun a b => (lin.apply (a ++ b)).map ν.sigmoid) l.h r.h,
       none, List.zipWith (fun x y => x + y) l.lens r.lens⟩

/-- Modelled from the spec: `basic.sequence_mask` (file `model/basic.py` is not
under src/).  Per spec section 3, the LengthMask entry at position `j` of a row
of true length `length` is the boolean `j < length`. -/
def sequence_mask (length maxLen : ℕ) : List Bool :=
  (List.range maxLen).map (fun j => decide (j < length))

/-- Modelled from the spec: `basic.dot_nd` (file `model/basic.py` is not under
src/).  The Scorer of spec section 4.2: one scalar per candidate, the dot
product of the learned query with the candidate hidden vector. -/
def dot_nd (query : Vec) (candidates : List Vec) : List ℚ :=
  candidates.map (fun cand => dot query cand)

/-- Hard one-hot vector: `1` at position `p`, `0` at the other `n - 1` slots. -/
def onehot : ℕ → ℕ → List ℚ
  | 0, _ => []
  | n + 1, 0 => 1 :: List.replicate n 0
  | n + 1, p + 1 => 0 :: onehot n p

/-- First-occurrence masked argmax: scan the scored candidates left to right,
keeping the first strictly greatest entry whose validity flag is set (per spec
section 4.3, ties broken by first occurrence in index order); `0` when no valid
entry exists. -/
def argmaxFrom (i : ℕ) (best : Option (ℕ × ℚ)) : List (ℚ × Bool) → ℕ
  | [] => (best.map Prod.fst).getD 0
  | (x, b) :: rest =>
      let best1 := if b then
          match best with
          | none => some (i, x)
          | some jm => if x > jm.2 then some (i, x) else some jm
        else best
      argmaxFrom (i + 1) best1 rest

/-- Modelled from the spec: `basic.greedy_select` (file `model/basic.py` is not
under src/).  Spec section 4.3 greedy mode: a one-hot at the argmax of the
masked effective logits, where the optional length weighting adds
`log(base) * span_length`; the `base` argument of this embedding is that
log-space coefficient. -/
def greedy_select (logits : List ℚ) (mask : List Bool) (use_weight : Bool)
    (weights : List ℚ) (base : ℚ) : List ℚ :=
  let eff := if use_weight then List.zipWith (fun lg w => lg + base * w) logits weights
             else logits
  onehot logits.length (argmaxFrom 0 none (eff.zip mask))

/-- Modelled from the spec: `basic.st_gumbel_softmax` (file `model/basic.py` is
not under src/).  Spec section 4.3 relaxed-stochastic mode, embedded through its
straight-through hard sample: a one-hot at the masked argmax of the
temperature-scaled noisy logits; `noise` is the explicit randomness stream that
only this training-mode path consumes. -/
def st_gumbel_softmax (logits : List ℚ) (temperature : ℚ) (mask : List Bool)
    (use_weight : Bool) (weights : List ℚ) (base : ℚ) (noise : List ℚ) : List ℚ :=
  let eff := if use_weight then List.zipWith (fun lg w => lg + base * w) logits weights
             else logits
  let noisy := List.zipWith (fun lg g => (lg + g) / temperature) eff noise
  onehot logits.length (argmaxFrom 0 none (noisy.zip mask))

/-- Inclusive prefix sum along the candidate axis (`Tensor.cumsum(1)`, one row). -/
def cumsum : List ℚ → List ℚ
  | [] => []
  | a :: rest => a :: (cumsum rest).map (fun x => a + x)

/-- The `[:, :-1]` slice of a row state: drop the rightmost slot of every
channel (src/model/treelstm.py lines 153-156 and 256-260). -/
def RowState.leftSlice (s : RowState) : RowState :=
  ⟨s.h.dropLast, s.c.map List.dropLast, s.lens.dropLast⟩

/-- The `[:, 1:]` slice of a row state: drop the leftmost slot of every
channel (src/model/treelstm.py lines 153-156 and 256-260). -/
def RowState.rightSlice (s : RowState) : RowState :=
  ⟨s.h.drop 1, s.c.map (fun cs => cs.drop 1), s.lens.drop 1⟩

/-- `BinaryTreeLSTM.update_state` for one row (src/model/treelstm.py lines
135-148): blend the tentative next state with the old state truncated by one
slot, through the float done flag (`1` keeps the new state, `0` keeps the old);
`c` stays absent when the new state carries no cell channel. -/
def update_state (old_state new_state : RowState) (done : ℚ) : RowState :=
  { h := List.zipWith (fun nv ov => vadd (smul done nv) (smul (1 - done) ov))
           new_state.h old_state.h.dropLast
    c := match new_state.c, old_state.c with
         | some nc, some oc =>
             some (List.zipWith (fun nv ov => vadd (smul done nv) (smul (1 - done) ov))
                     nc oc.dropLast)
         | _, _ => none
    lens := List.zipWith (fun nl ol => done * nl + (1 - done) * ol)
              new_state.lens old_state.lens.dropLast }

/-- Three-way routing blend at one channel of vectors:
`sel * merged + left_mask * old_left + right_mask * old_right`. -/
def blendVecs (sel : List ℚ) (nv : List Vec) (lm : List ℚ) (lv : List Vec)
    (rm : List ℚ) (rv : List Vec) : List Vec :=
  List.zipWith vadd (List.zipWith smul sel nv)
    (List.zipWith vadd (List.zipWith smul lm lv) (List.zipWith smul rm rv))

/-- The same three-way routing blend on the scalar lens channel. -/
def blendScalars (sel nl lm ll rm rl : List ℚ) : List ℚ :=
  List.zipWith (fun x y => x + y) (List.zipWith (fun x y => x * y) sel nl)
    (List.zipWith (fun x y => x + y) (List.zipWith (fun x y => x * y) lm ll)
      (List.zipWith (fun x y => x * y) rm rl))

/-- Lines 178-196 of src/model/treelstm.py: from the selection vector, build the
prefix-sum routing masks (`left_mask = 1 - cumsum`, `right_mask` the cumsum
shifted right by one with a zero fill) and blend the merged candidates with the
old left/right neighbour slices on every channel; also returns `selected_h`,
the selection-weighted sum of the blended hidden states. -/
def select_composition_blend (old_state new_state : RowState)
    (select_mask : List ℚ) : RowState × Vec :=
  let old_h_left := old_state.h.dropLast
  let old_h_right := old_state.h.drop 1
  let old_lens_left := old_state.lens.dropLast
  let old_lens_right := old_state.lens.drop 1
  let select_mask_cumsum := cumsum select_mask
  let left_mask := select_mask_cumsum.map (fun x => 1 - x)
  let right_mask := 0 :: select_mask_cumsum.dropLast
  let new_h := blendVecs select_mask new_state.h left_mask old_h_left
                 right_mask old_h_right
  let new_c :=
    match new_state.c, old_state.c with
    | some nc, some oc =>
        some (blendVecs select_mask nc left_mask oc.dropLast right_mask (oc.drop 1))
    | _, _ => none
  let new_lens := blendScalars select_mask new_state.lens left_mask old_lens_left
                    right_mask old_lens_right
  let selected_h :=
    match List.zipWith smul select_mask new_h with
    | [] => []
    | v :: vs => vs.foldl vadd v
  (⟨new_h, new_c, new_lens⟩, selected_h)

/-- `BinaryTreeLSTM.select_composition` for one row, without the debug guard
(src/model/treelstm.py lines 150-196): score the candidates with the learned
query, pick a selection vector by the Gumbel path in training mode or the
greedy path otherwise, and blend.  Returns the blended state, the selection
mask and `selected_h`. -/
def select_composition (query : Vec) (training : Bool) (temperature : ℚ)
    (use_weight : Bool) (base : ℚ) (noise : List ℚ) (mask : List Bool)
    (old_state new_state : RowState) : RowState × List ℚ × Vec :=
  let comp_weights := dot_nd query new_state.h
  let select_mask :=
    if training then
      st_gumbel_softmax comp_weights temperature mask use_weight
        new_state.lens base noise
    else
      greedy_select comp_weights mask use_weight new_state.lens base
  let bl := select_composition_blend old_state new_state select_mask
  (bl.1, select_mask, bl.2)

/-- `BinaryTreeLSTM.select_composition` with its debug guard (src/model/
treelstm.py lines 157-162): in debug mode, a NaN among the computed
`comp_weights` aborts the forward pass with a fatal error.  `isnan` stands for
the elementwise `np.isnan` test, a parameter of the embedding because exact
rationals carry no NaN value. -/
def select_composition_checked (debug : Bool) (isnan : ℚ → Bool) (query : Vec)
    (training : Bool) (temperature : ℚ) (use_weight : Bool) (base : ℚ)
    (noise : List ℚ) (mask : List Bool) (old_state new_state : RowState) :
    Except String (RowState × List ℚ × Vec) :=
  let comp_weights := dot_nd query new_state.h
  if debug && comp_weights.any isnan then
    Except.error "nan in comp_weights"
  else
    Except.ok (select_composition query training temperature use_weight base
      noise mask old_state new_state)

/-- The learned parameters and flags of `BinaryTreeLSTM` that the composition
engine reads (src/model/treelstm.py lines 69-110); `weighted_base` is the
log-space length-weighting coefficient handed to the selection functions. -/
structure Params where
  cell : ComposeCell
  comp_query : Vec
  gumbel_temperature : ℚ
  weighted_by_interval_length : Bool
  weighted_base : ℚ

/-- One iteration of the main loop of `BinaryTreeLSTM.forward` for one row
(src/model/treelstm.py lines 253-274): compose all adjacent pairs, select and
blend when more than one option remains (`i < max_depth - 2`), then blend with
the truncated old state through the row's done flag
`done_mask = length_mask[:, i+1]`. -/
def rowStep (ν : Numerics) (p : Params) (training : Bool) (noise_i : List ℚ)
    (maxDepth L i : ℕ) (state : RowState) : RowState × Option (List ℚ) :=
  let new_state := p.cell.forward ν state.leftSlice state.rightSlice
  let length_mask := sequence_mask L maxDepth
  let picked :=
    if i < maxDepth - 2 then
      let sc := select_composition p.comp_query training p.gumbel_temperature
                  p.weighted_by_interval_length p.weighted_base noise_i
                  (length_mask.drop (i + 1)) state new_state
      (sc.1, some sc.2.1)
    else
      (new_state, none)
  let done : ℚ := if length_mask.getD (i + 1) false then 1 else 0
  (update_state state picked.1 done, picked.2)

/-- `interval_lens = length_mask.clone().float()` for one row
(src/model/treelstm.py line 205). -/
def initLens (L maxDepth : ℕ) : List ℚ :=
  (sequence_mask L maxDepth).map (fun b => if b then (1 : ℚ) else 0)

/-- The row state after `i` iterations of the main loop. -/
def rowStateAt (ν : Numerics) (p : Params) (training : Bool) (noise : ℕ → List ℚ)
    (maxDepth L : ℕ) (s0 : RowState) : ℕ → RowState
  | 0 => s0
  | i + 1 => (rowStep ν p training (noise i) maxDepth L i
                (rowStateAt ν p training noise maxDepth L s0 i)).1

/-- The recorded selection masks (`select_masks`) of the first `i` iterations
for one row; a mask is appended only by the iterations that select. -/
def rowTrace (ν : Numerics) (p : Params) (training : Bool) (noise : ℕ → List ℚ)
    (maxDepth L : ℕ) (s0 : RowState) : ℕ → List (List ℚ)
  | 0 => []
  | i + 1 =>
      rowTrace ν p training noise maxDepth L s0 i ++
        (rowStep ν p training (noise i) maxDepth L i
           (rowStateAt ν p training noise maxDepth L s0 i)).2.toList

/-- `BinaryTreeLSTM.forward` for one batch row, starting from the externally
produced leaf states (the leaf encoder is outside the core per spec section 6):
run `max_depth - 1` iterations from the initial `(h0, c0, interval_lens)` state
and return the final state with the recorded selection masks
(src/model/treelstm.py lines 198-205, 250, 253-274, 295-299). -/
def rowForward (ν : Numerics) (p : Params) (training : Bool) (noise : ℕ → List ℚ)
    (h0 : List Vec) (c0 : Option (List Vec)) (L : ℕ) : RowState × List (List ℚ) :=
  let maxDepth := h0.length
  let s0 : RowState := ⟨h0, c0, initLens L maxDepth⟩
  (rowStateAt ν p training noise maxDepth L s0 (maxDepth - 1),
   rowTrace ν p training noise maxDepth L s0 (maxDepth - 1))

/-- The batched `BinaryTreeLSTM.forward`: every batch row advances through the
same iterations independently, so the batched pass is the per-row pass mapped
over the rows, each with its own noise stream. -/
def forward (ν : Numerics) (p : Params) (training : Bool)
    (noises : ℕ → ℕ → List ℚ) (h0s : List (List Vec))
    (c0s : List (Option (List Vec))) (lengths : List ℕ) :
    List (RowState × List (List ℚ)) :=
  (List.zip h0s (List.zip c0s lengths)).enum.map
    (fun bi => rowForward ν p training (noises bi.1) bi.2.1 bi.2.2.1 bi.2.2.2)

/-- Shape of a channel holding `n` vectors of dimension `H`. -/
def VecsShape (xs : List Vec) (n H : ℕ) : Prop :=
  xs.length = n ∧ ∀ i, (hi : i < xs.length) → xs[i].length = H

/-- Well-formedness of the learned cell parameters at hidden size `H`. -/
def ComposeCell.WF (H : ℕ) : ComposeCell → Prop
  | .treelstm layer =>
      layer.hidden_dim = H ∧ layer.comp_linear.weight.length = 5 * H ∧
        layer.comp_linear.bias.length = 5 * H
  | .simple lin => lin.weight.length = H ∧ lin.bias.length = H

/-- Shape of a row state under a given cell: `n` slots per channel, hidden
dimension `H`, and the cell channel present exactly for the gated cell. -/
def StateShape (cell : ComposeCell) (s : RowState) (n H : ℕ) : Prop :=
  VecsShape s.h n H ∧ s.lens.length = n ∧
    (match cell, s.c with
     | .treelstm _, some cs => VecsShape cs n H
     | .simple _, none => True
     | _, _ => False)

/-! ### Vector-level helper lemmas -/

lemma length_vadd (a b : Vec) : (vadd a b).length = min a.length b.length := by
  simp [vadd]

lemma length_smul (a : ℚ) (v : Vec) : (smul a v).length = v.length := by
  simp [smul]

lemma smul_one (v : Vec) : smul 1 v = v := by
  simp [smul]

lemma vadd_zero_left (a b : Vec) (h : b.length ≤ a.length) : vadd (smul 0 a) b = b := by
  apply List.ext_getElem
  · simp [vadd, smul]; omega
  · intro i h1 h2
    simp [vadd, smul]

lemma vadd_zero_right (a b : Vec) (h : a.length ≤ b.length) : vadd a (smul 0 b) = a := by
  apply List.ext_getElem
  · simp [vadd, smul]; omega
  · intro i h1 h2
    simp [vadd, smul]

/-! ### One-hot selection vectors and their prefix sums -/

lemma length_onehot (n p : ℕ) : (onehot n p).length = n := by
  induction n generalizing p with
  | zero => simp [onehot]
  | succ n ih =>
    cases p with
    | zero => simp [onehot]
    | succ p => simp [onehot, ih]

lemma getElem_onehot (n p i : ℕ) (hi : i < (onehot n p).length) :
    (onehot n p)[i] = if i = p then 1 else 0 := by
  induction n generalizing p i with
  | zero => simp [onehot] at hi
  | succ n ih =>
    cases p with
    | zero =>
      cases i with
      | zero => simp [onehot]
      | succ i =>
        have hi2 : i < n := by simpa [onehot] using hi
        simp [onehot, List.getElem_replicate, Nat.succ_ne_zero]
    | succ p =>
      cases i with
      | zero => simp [onehot]
      | succ i =>
        have hi2 : i < (onehot n p).length := by simpa [onehot, length_onehot] using hi
        have := ih p i hi2
        simpa [onehot, List.get_eq_getElem] using this

lemma length_cumsum (l : List ℚ) : (cumsum l).length = l.length := by
  induction l with
  | nil => simp [cumsum]
  | cons a rest ih => simp [cumsum, ih]

lemma cumsum_replicate_zero (k : ℕ) :
    cumsum (List.replicate k (0 : ℚ)) = List.replicate k 0 := by
  induction k with
  | zero => simp [cumsum]
  | succ k ih => simp [List.replicate_succ, cumsum, ih]

lemma cumsum_onehot (n p : ℕ) (hp : p < n) :
    cumsum (onehot n p) = List.replicate p 0 ++ List.replicate (n - p) 1 := by
  induction n generalizing p with
  | zero => omega
  | succ n ih =>
    cases p with
    | zero =>
      simp [onehot, cumsum, cumsum_replicate_zero, List.replicate_succ]
    | succ p =>
      have hp2 : p < n := by omega
      simp [onehot, cumsum, ih p hp2, List.replicate_succ]

lemma getElem_replicate_append (a b : ℕ) (x y : ℚ) (t : ℕ)
    (ht : t < (List.replicate a x ++ List.replicate b y).length) :
    (List.replicate a x ++ List.replicate b y)[t] = if t < a then x else y := by
  rcases Nat.lt_or_ge t a with h | h
  · rw [List.getElem_append_left (by simpa using h)]
    simp [h]
  · rw [List.getElem_append_right (by simpa using h)]
    simp only [List.getElem_replicate]
    rw [if_neg (by omega)]

/-- `left_mask = 1 - cumsum(sel)` for a hard one-hot at `p`: ones strictly
before `p`, zeros at and after it. -/
lemma left_mask_eq (n p : ℕ) (hp : p < n) :
    (cumsum (onehot n p)).map (fun x => (1 : ℚ) - x)
      = List.replicate p 1 ++ List.replicate (n - p) 0 := by
  rw [cumsum_onehot n p hp]
  simp

/-- `right_mask = shift_right(cumsum(sel), 1, fill 0)` for a hard one-hot at
`p`: zeros at and before `p`, ones strictly after it. -/
lemma right_mask_eq (n p : ℕ) (hp : p < n) :
    (0 : ℚ) :: (cumsum (onehot n p)).dropLast
      = List.replicate (p + 1) (0 : ℚ) ++ List.replicate (n - 1 - p) 1 := by
  rw [cumsum_onehot n p hp]
  have hsplit : n - p = (n - 1 - p) + 1 := by omega
  rw [hsplit, List.replicate_succ', ← List.append_assoc, List.dropLast_concat]
  simp [List.replicate_succ]

/-- The three-way blend of the vector channel, when the selection is a hard
one-hot at `p`: keep the left-slice entries before `p`, take the merged entry
at `p`, take the right-slice entries after `p`. -/
lemma blendVecs_onehot (p n1 H : ℕ) (hp : p < n1) (m lv rv : List Vec)
    (hm : m.length = n1) (hlv : lv.length = n1) (hrv : rv.length = n1)
    (hmH : ∀ i, (hi : i < m.length) → m[i].length = H)
    (hlvH : ∀ i, (hi : i < lv.length) → lv[i].length = H)
    (hrvH : ∀ i, (hi : i < rv.length) → rv[i].length = H) :
    blendVecs (onehot n1 p) m ((cumsum (onehot n1 p)).map (fun x => 1 - x)) lv
      ((0 : ℚ) :: (cumsum (onehot n1 p)).dropLast) rv
      = lv.take p ++ (m.drop p).take 1 ++ rv.drop (p + 1) := by
  rw [left_mask_eq n1 p hp, right_mask_eq n1 p hp]
  apply List.ext_getElem
  · simp [blendVecs, length_onehot, hm, hlv, hrv]
    omega
  · intro i h1 h2
    have hi : i < n1 := by
      simp [blendVecs, length_onehot, hm, hlv, hrv] at h1
      omega
    have him : i < m.length := by omega
    have hilv : i < lv.length := by omega
    have hirv : i < rv.length := by omega
    simp only [blendVecs, List.getElem_zipWith]
    rw [getElem_onehot n1 p i (by simpa [length_onehot] using hi),
        getElem_replicate_append p (n1 - p) 1 0 i (by simp; omega),
        getElem_replicate_append (p + 1) (n1 - 1 - p) 0 1 i (by simp; omega)]
    rcases lt_trichotomy i p with hc | hc | hc
    · rw [if_neg (by omega), if_pos hc, if_pos (by omega)]
      rw [smul_one,
          vadd_zero_right (lv[i]) (rv[i]) (by simp [hlvH i hilv, hrvH i hirv]),
          vadd_zero_left (m[i]) (lv[i]) (by simp [hlvH i hilv, hmH i him])]
      rw [List.getElem_append_left (by simp [hlv, hm]; omega),
          List.getElem_append_left (by simp [hlv]; omega), List.getElem_take]
    · subst hc
      rw [if_pos rfl, if_neg (by omega), if_pos (by omega)]
      rw [smul_one,
          vadd_zero_left (lv[i]) (smul 0 (rv[i]))
            (by simp [length_smul, hlvH i hilv, hrvH i hirv]),
          vadd_zero_right (m[i]) (rv[i]) (by simp [hmH i him, hrvH i hirv])]
      rw [List.getElem_append_left (by simp [hlv, hm]; omega)]
      rw [List.getElem_append_right (by simp [hlv]; try omega)]
      have hb1 : i - (List.take i lv).length < (List.take 1 (List.drop i m)).length := by
        simp [hlv, hm]; omega
      have hb2 : i - (List.take i lv).length < (List.drop i m).length := by
        simp [hlv, hm]; omega
      have h0 : (List.take 1 (List.drop i m))[i - (List.take i lv).length]
          = (List.drop i m)[i - (List.take i lv).length] := List.getElem_take ..
      rw [h0, List.getElem_drop]
      have hidx : i + (i - (List.take i lv).length) = i := by
        simp [hlv]; omega
      simp_rw [hidx]
    · rw [if_neg (by omega), if_neg (by omega), if_neg (by omega)]
      rw [smul_one,
          vadd_zero_left (lv[i]) (rv[i]) (by simp [hlvH i hilv, hrvH i hirv]),
          vadd_zero_left (m[i]) (rv[i]) (by simp [hrvH i hirv, hmH i him])]
      rw [List.getElem_append_right (by simp [hlv, hm]; omega), List.getElem_drop]
      have hidx : p + 1 + (i - (List.take p lv ++ List.take 1 (List.drop p m)).length) = i := by
        simp [hlv, hm]; omega
      simp_rw [hidx]

/-- The three-way blend of the scalar lens channel under a hard one-hot at
`p`: same routing as the vector channel. -/
lemma blendScalars_onehot (p n1 : ℕ) (hp : p < n1) (nl ll rl : List ℚ)
    (hnl : nl.length = n1) (hll : ll.length = n1) (hrl : rl.length = n1) :
    blendScalars (onehot n1 p) nl ((cumsum (onehot n1 p)).map (fun x => 1 - x)) ll
      ((0 : ℚ) :: (cumsum (onehot n1 p)).dropLast) rl
      = ll.take p ++ (nl.drop p).take 1 ++ rl.drop (p + 1) := by
  rw [left_mask_eq n1 p hp, right_mask_eq n1 p hp]
  apply List.ext_getElem
  · simp [blendScalars, length_onehot, hnl, hll, hrl]
    omega
  · intro i h1 h2
    have hi : i < n1 := by
      simp [blendScalars, length_onehot, hnl, hll, hrl] at h1
      omega
    simp only [blendScalars, List.getElem_zipWith]
    rw [getElem_onehot n1 p i (by simpa [length_onehot] using hi),
        getElem_replicate_append p (n1 - p) 1 0 i (by simp; omega),
        getElem_replicate_append (p + 1) (n1 - 1 - p) 0 1 i (by simp; omega)]
    rcases lt_trichotomy i p with hc | hc | hc
    · rw [if_neg (by omega), if_pos hc, if_pos (by omega)]
      rw [List.getElem_append_left (by simp [hll, hnl]; omega),
          List.getElem_append_left (by simp [hll]; omega), List.getElem_take]
      ring
    · subst hc
      rw [if_pos rfl, if_neg (by omega), if_pos (by omega)]
      rw [List.getElem_append_left (by simp [hll, hnl]; omega)]
      rw [List.getElem_append_right (by simp [hll]; try omega)]
      have hb1 : i - (List.take i ll).length < (List.take 1 (List.drop i nl)).length := by
        simp [hll, hnl]; omega
      have hb2 : i - (List.take i ll).length < (List.drop i nl).length := by
        simp [hll, hnl]; omega
      have h0 : (List.take 1 (List.drop i nl))[i - (List.take i ll).length]
          = (List.drop i nl)[i - (List.take i ll).length] := List.getElem_take ..
      rw [h0, List.getElem_drop]
      have hidx : i + (i - (List.take i ll).length) = i := by
        simp [hll]; omega
      simp_rw [hidx]
      ring
    · rw [if_neg (by omega), if_neg (by omega), if_neg (by omega)]
      rw [List.getElem_append_right (by simp [hll, hnl]; omega), List.getElem_drop]
      have hidx : p + 1 + (i - (List.take p ll ++ List.take 1 (List.drop p nl)).length) = i := by
        simp [hll, hnl]; omega
      simp_rw [hidx]
      ring

/-! ### `VecsShape` conversion helpers -/

lemma vecsShape_of_mem {xs : List Vec} {n H : ℕ} (hlen : xs.length = n)
    (h : ∀ v ∈ xs, v.length = H) : VecsShape xs n H :=
  ⟨hlen, fun _ hi => h _ (List.getElem_mem hi)⟩

lemma vecsShape_mem {xs : List Vec} {n H : ℕ} (hs : VecsShape xs n H) :
    ∀ v ∈ xs, v.length = H := by
  intro v hv
  obtain ⟨i, hi, rfl⟩ := List.getElem_of_mem hv
  exact hs.2 i hi

/-! ### Routing characterization at the `select_composition_blend` level -/

lemma select_blend_h (old_state new_state : RowState) (p n H : ℕ) (hp : p + 1 < n)
    (ho : old_state.h.length = n) (hn : new_state.h.length = n - 1)
    (hoH : ∀ i, (hi : i < old_state.h.length) → old_state.h[i].length = H)
    (hnH : ∀ i, (hi : i < new_state.h.length) → new_state.h[i].length = H) :
    ((select_composition_blend old_state new_state (onehot (n - 1) p)).1).h
      = old_state.h.take p ++ (new_state.h.drop p).take 1
          ++ old_state.h.drop (p + 2) := by
  have hp1 : p < n - 1 := by omega
  simp only [select_composition_blend]
  rw [blendVecs_onehot p (n - 1) H hp1 new_state.h old_state.h.dropLast
        (old_state.h.drop 1) hn (by simp [ho]) (by simp [ho]; try omega) hnH
        (fun i hi => by
          rw [List.getElem_dropLast]
          exact hoH i (by simp at hi; omega))
        (fun i hi => by
          rw [List.getElem_drop]
          exact hoH (1 + i) (by simp at hi; omega))]
  rw [List.dropLast_eq_take, List.take_take, List.drop_drop]
  have h1 : min p (old_state.h.length - 1) = p := by omega
  have h2 : 1 + (p + 1) = p + 2 := by omega
  rw [h1, h2]

lemma select_blend_lens (old_state new_state : RowState) (p n : ℕ) (hp : p + 1 < n)
    (ho : old_state.lens.length = n) (hn : new_state.lens.length = n - 1) :
    ((select_composition_blend old_state new_state (onehot (n - 1) p)).1).lens
      = old_state.lens.take p ++ (new_state.lens.drop p).take 1
          ++ old_state.lens.drop (p + 2) := by
  have hp1 : p < n - 1 := by omega
  simp only [select_composition_blend]
  rw [blendScalars_onehot p (n - 1) hp1 new_state.lens old_state.lens.dropLast
        (old_state.lens.drop 1) hn (by simp [ho]) (by simp [ho]; try omega)]
  rw [List.dropLast_eq_take, List.take_take, List.drop_drop]
  have h1 : min p (old_state.lens.length - 1) = p := by omega
  have h2 : 1 + (p + 1) = p + 2 := by omega
  rw [h1, h2]

lemma select_blend_c_some (old_state new_state : RowState) (nc oc : List Vec)
    (p n H : ℕ) (hp : p + 1 < n)
    (hnc : new_state.c = some nc) (hoc : old_state.c = some oc)
    (ho : oc.length = n) (hn : nc.length = n - 1)
    (hoH : ∀ i, (hi : i < oc.length) → oc[i].length = H)
    (hnH : ∀ i, (hi : i < nc.length) → nc[i].length = H) :
    ((select_composition_blend old_state new_state (onehot (n - 1) p)).1).c
      = some (oc.take p ++ (nc.drop p).take 1 ++ oc.drop (p + 2)) := by
  have hp1 : p < n - 1 := by omega
  simp only [select_composition_blend, hnc, hoc]
  rw [blendVecs_onehot p (n - 1) H hp1 nc oc.dropLast (oc.drop 1) hn
        (by simp [ho]) (by simp [ho]; try omega) hnH
        (fun i hi => by
          rw [List.getElem_dropLast]
          exact hoH i (by simp at hi; omega))
        (fun i hi => by
          rw [List.getElem_drop]
          exact hoH (1 + i) (by simp at hi; omega))]
  rw [List.dropLast_eq_take, List.take_take, List.drop_drop]
  have h1 : min p (oc.length - 1) = p := by omega
  have h2 : 1 + (p + 1) = p + 2 := by omega
  rw [h1, h2]

lemma select_blend_c_none (old_state new_state : RowState) (sel : List ℚ)
    (hnc : new_state.c = none) :
    ((select_composition_blend old_state new_state sel).1).c = none := by
  cases hoc : old_state.c <;> simp [select_composition_blend, hnc, hoc]

/-! ### Shape lemmas for the compose cells -/

lemma length_linear_apply (lin : Linear) (x : Vec) :
    (lin.apply x).length = min lin.weight.length lin.bias.length := by
  simp [Linear.apply]

lemma treelstm_cell_shapes (layer : BinaryTreeLSTMLayer) (ν : Numerics)
    (hl hr cl cr : Vec) (H : ℕ) (hdim : layer.hidden_dim = H)
    (hw : layer.comp_linear.weight.length = 5 * H)
    (hb : layer.comp_linear.bias.length = 5 * H)
    (hcl : cl.length = H) (hcr : cr.length = H) :
    (layer.cell ν hl hr cl cr).1.length = H ∧
      (layer.cell ν hl hr cl cr).2.length = H := by
  have hv : (layer.comp_linear.apply (hl ++ hr)).length = 5 * H := by
    rw [length_linear_apply, hw, hb, min_self]
  constructor <;>
    · simp only [BinaryTreeLSTMLayer.cell, chunk5, List.length_zipWith,
        length_vadd, List.length_take, List.length_drop, hv, hdim, hcl, hcr]
      omega

/-- The gated branch of `ComposeCell.forward`, written out. -/
lemma cellForward_treelstm_def (ν : Numerics) (layer : BinaryTreeLSTMLayer)
    (l r : RowState) :
    ComposeCell.forward ν (.treelstm layer) l r =
      ⟨(List.zipWith (fun a b => layer.cell ν a.1 b.1 a.2 b.2)
          (l.h.zip (l.c.getD [])) (r.h.zip (r.c.getD []))).map Prod.fst,
       some ((List.zipWith (fun a b => layer.cell ν a.1 b.1 a.2 b.2)
          (l.h.zip (l.c.getD [])) (r.h.zip (r.c.getD []))).map Prod.snd),
       List.zipWith (fun x y => x + y) l.lens r.lens⟩ := rfl

/-- The simple branch of `ComposeCell.forward`, written out. -/
lemma cellForward_simple_def (ν : Numerics) (lin : Linear) (l r : RowState) :
    ComposeCell.forward ν (.simple lin) l r =
      ⟨List.zipWith (fun a b => (lin.apply (a ++ b)).map ν.sigmoid) l.h r.h,
       none, List.zipWith (fun x y => x + y) l.lens r.lens⟩ := rfl

/-- Shape of the composed candidate row produced by one loop iteration. -/
lemma cellForward_shape (ν : Numerics) (cell : ComposeCell) (s : RowState)
    (n H : ℕ) (hwf : ComposeCell.WF H cell) (hs : StateShape cell s n H) :
    StateShape cell (ComposeCell.forward ν cell s.leftSlice s.rightSlice)
      (n - 1) H := by
  obtain ⟨⟨hhl, hhH⟩, hlens, hc⟩ := hs
  cases cell with
  | treelstm layer =>
    obtain ⟨hdim, hw, hb⟩ := hwf
    cases hcs : s.c with
    | none =>
      rw [hcs] at hc
      exact absurd hc (by simp)
    | some cs =>
      rw [hcs] at hc
      have hc2 : VecsShape cs n H := hc
      rw [cellForward_treelstm_def]
      simp only [RowState.leftSlice, RowState.rightSlice, hcs, Option.map_some',
        Option.getD_some]
      have hzl : ((s.h.dropLast.zip cs.dropLast)).length = n - 1 := by
        simp only [List.length_zip, List.length_dropLast, hhl, hc2.1]
        omega
      have hzr : ((s.h.drop 1).zip (cs.drop 1)).length = n - 1 := by
        simp only [List.length_zip, List.length_drop, hhl, hc2.1]
        omega
      have hcn : cs.length = n := hc2.1
      have hzw : (List.zipWith (fun a b => layer.cell ν a.1 b.1 a.2 b.2)
          (s.h.dropLast.zip cs.dropLast) ((s.h.drop 1).zip (cs.drop 1))).length
            = n - 1 := by
        simp only [List.length_zipWith, hzl, hzr, min_self]
      have hmain : ∀ i, (hi : i < (List.zipWith
            (fun a b => layer.cell ν a.1 b.1 a.2 b.2)
            (s.h.dropLast.zip cs.dropLast)
            ((s.h.drop 1).zip (cs.drop 1))).length) →
          ((List.zipWith (fun a b => layer.cell ν a.1 b.1 a.2 b.2)
            (s.h.dropLast.zip cs.dropLast)
            ((s.h.drop 1).zip (cs.drop 1)))[i]).1.length = H ∧
          ((List.zipWith (fun a b => layer.cell ν a.1 b.1 a.2 b.2)
            (s.h.dropLast.zip cs.dropLast)
            ((s.h.drop 1).zip (cs.drop 1)))[i]).2.length = H := by
        intro i hi
        have hil : i < n - 1 := by rw [hzw] at hi; exact hi
        have hib1 : i < cs.dropLast.length := by
          rw [List.length_dropLast, hcn]; omega
        have hib2 : i < (cs.drop 1).length := by
          rw [List.length_drop, hcn]; omega
        have hcl : cs.dropLast[i].length = H := by
          rw [List.getElem_dropLast]
          exact hc2.2 i (by omega)
        have hcr : (cs.drop 1)[i].length = H := by
          rw [List.getElem_drop]
          exact hc2.2 (1 + i) (by omega)
        simp only [List.getElem_zipWith, List.getElem_zip]
        exact treelstm_cell_shapes layer ν _ _ _ _ H hdim hw hb hcl hcr
      refine ⟨⟨?_, ?_⟩, ?_, ?_⟩
      · rw [List.length_map, hzw]
      · intro i hi
        simp only [List.getElem_map]
        exact (hmain i (by simpa using hi)).1
      · simp [RowState.leftSlice, RowState.rightSlice, hlens]
        try omega
      · refine ⟨?_, ?_⟩
        · rw [List.length_map, hzw]
        · intro i hi
          simp only [List.getElem_map]
          exact (hmain i (by simpa using hi)).2
  | simple lin =>
    obtain ⟨hw, hb⟩ := hwf
    cases hcs : s.c with
    | some cs =>
      rw [hcs] at hc
      exact absurd hc (by simp)
    | none =>
      rw [cellForward_simple_def]
      refine ⟨⟨?_, ?_⟩, ?_, ?_⟩
      · simp [RowState.leftSlice, RowState.rightSlice, hhl]
        try omega
      · intro i hi
        simp only [List.getElem_zipWith, List.length_map]
        simp [length_linear_apply, hw, hb]
      · simp [RowState.leftSlice, RowState.rightSlice, hlens]
        try omega
      · simp

/-! ### The two boundary values of the done-mask blend -/

lemma zipWith_blend_zero (nvs ovs : List Vec) (hlen : ovs.length ≤ nvs.length)
    (hin : ∀ i, (h1 : i < nvs.length) → (h2 : i < ovs.length) →
      ovs[i].length ≤ nvs[i].length) :
    List.zipWith (fun nv ov => vadd (smul 0 nv) (smul (1 - (0 : ℚ)) ov)) nvs ovs
      = ovs := by
  apply List.ext_getElem
  · simp; omega
  · intro i h1 h2
    simp only [List.getElem_zipWith, sub_zero, smul_one]
    exact vadd_zero_left _ _ (hin i (by simp at h1; omega) h2)

lemma zipWith_blend_one (nvs ovs : List Vec) (hlen : nvs.length ≤ ovs.length)
    (hin : ∀ i, (h1 : i < nvs.length) → (h2 : i < ovs.length) →
      nvs[i].length ≤ ovs[i].length) :
    List.zipWith (fun nv ov => vadd (smul 1 nv) (smul (1 - (1 : ℚ)) ov)) nvs ovs
      = nvs := by
  apply List.ext_getElem
  · simp; omega
  · intro i h1 h2
    simp only [List.getElem_zipWith, sub_self, smul_one]
    exact vadd_zero_right _ _ (hin i h2 (by simp at h1; omega))

lemma zipWith_lens_zero (nls ols : List ℚ) (hlen : ols.length ≤ nls.length) :
    List.zipWith (fun nl ol => 0 * nl + (1 - (0 : ℚ)) * ol) nls ols = ols := by
  apply List.ext_getElem
  · simp; omega
  · intro i h1 h2
    simp only [List.getElem_zipWith]
    ring

lemma zipWith_lens_one (nls ols : List ℚ) (hlen : nls.length ≤ ols.length) :
    List.zipWith (fun nl ol => 1 * nl + (1 - (1 : ℚ)) * ol) nls ols = nls := by
  apply List.ext_getElem
  · simp; omega
  · intro i h1 h2
    simp only [List.getElem_zipWith]
    ring

/-- `update_state` with done flag `0` (a finished row) returns the old state
with its last slot dropped, on every channel. -/
lemma update_state_done (cell : ComposeCell) (old_state new_state : RowState)
    (n H : ℕ) (hold : StateShape cell old_state n H)
    (hnew : StateShape cell new_state (n - 1) H) :
    update_state old_state new_state 0 = old_state.leftSlice := by
  obtain ⟨⟨hohl, hohH⟩, holens, hoc⟩ := hold
  obtain ⟨⟨hnhl, hnhH⟩, hnlens, hnc⟩ := hnew
  unfold update_state RowState.leftSlice
  rw [RowState.mk.injEq]
  refine ⟨?_, ?_, ?_⟩
  · exact zipWith_blend_zero _ _ (by simp [hohl, hnhl]; try omega)
      (fun i h1 h2 => by
        rw [hnhH i h1, List.getElem_dropLast, hohH i (by simp at h2; try omega)])
  · cases cell with
    | treelstm layer =>
      cases hcs : old_state.c with
      | none => rw [hcs] at hoc; exact absurd hoc (by simp)
      | some oc =>
        cases hns : new_state.c with
        | none => rw [hns] at hnc; exact absurd hnc (by simp)
        | some nc =>
          rw [hcs] at hoc; rw [hns] at hnc
          have hoc2 : VecsShape oc n H := hoc
          have hnc2 : VecsShape nc (n - 1) H := hnc
          simp only [Option.map_some']
          rw [zipWith_blend_zero _ _ (by simp [hoc2.1, hnc2.1]; try omega)
            (fun i h1 h2 => by
              rw [hnc2.2 i h1, List.getElem_dropLast,
                  hoc2.2 i (by simp at h2; try omega)])]
    | simple lin =>
      cases hcs : old_state.c with
      | some oc => rw [hcs] at hoc; exact absurd hoc (by simp)
      | none =>
        cases hns : new_state.c with
        | some nc => rw [hns] at hnc; exact absurd hnc (by simp)
        | none => simp
  · exact zipWith_lens_zero _ _ (by simp [holens, hnlens]; try omega)

/-- `update_state` with done flag `1` (a still-active row) returns the
tentative new state unchanged, on every channel. -/
lemma update_state_active (cell : ComposeCell) (old_state new_state : RowState)
    (n H : ℕ) (hold : StateShape cell old_state n H)
    (hnew : StateShape cell new_state (n - 1) H) :
    update_state old_state new_state 1 = new_state := by
  obtain ⟨⟨hohl, hohH⟩, holens, hoc⟩ := hold
  obtain ⟨⟨hnhl, hnhH⟩, hnlens, hnc⟩ := hnew
  unfold update_state
  cases hne : new_state with
  | mk nh ncc nlens =>
    simp only
    rw [RowState.mk.injEq]
    refine ⟨?_, ?_, ?_⟩
    · rw [hne] at hnhl hnhH
      exact zipWith_blend_one _ _ (by simp [hohl, hnhl]; try omega)
        (fun i h1 h2 => by
          rw [hnhH i h1, List.getElem_dropLast, hohH i (by simp at h2; try omega)])
    · rw [hne] at hnc
      cases cell with
      | treelstm layer =>
        cases hcs : old_state.c with
        | none => rw [hcs] at hoc; exact absurd hoc (by simp)
        | some oc =>
          cases hns : ncc with
          | none => rw [hns] at hnc
          | some nc =>
            rw [hcs] at hoc; rw [hns] at hnc
            have hoc2 : VecsShape oc n H := hoc
            have hnc2 : VecsShape nc (n - 1) H := hnc
            simp only
            rw [zipWith_blend_one _ _ (by simp [hoc2.1, hnc2.1]; try omega)
              (fun i h1 h2 => by
                rw [hnc2.2 i h1, List.getElem_dropLast,
                    hoc2.2 i (by simp at h2; try omega)])]
      | simple lin =>
        cases hcs : old_state.c with
        | some oc => rw [hcs] at hoc; exact absurd hoc (by simp)
        | none =>
          cases hns : ncc with
          | some nc => rw [hns] at hnc; exact absurd hnc (by simp)
          | none => simp
    · rw [hne] at hnlens
      exact zipWith_lens_one _ _ (by simp [holens, hnlens]; try omega)

/-! ### The masked argmax lands on a flagged entry, or defaults to index 0 -/

lemma argmaxFrom_some_spec (l : List (ℚ × Bool)) : ∀ (i j : ℕ) (m : ℚ),
    argmaxFrom i (some (j, m)) l = j ∨
      ∃ t, ∃ ht : t < l.length,
        argmaxFrom i (some (j, m)) l = i + t ∧ l[t].2 = true := by
  induction l with
  | nil =>
    intro i j m
    left
    rfl
  | cons xb rest ih =>
    intro i j m
    obtain ⟨x, b⟩ := xb
    cases b with
    | false =>
      have hstep : argmaxFrom i (some (j, m)) ((x, false) :: rest)
          = argmaxFrom (i + 1) (some (j, m)) rest := by
        simp [argmaxFrom]
      rw [hstep]
      rcases ih (i + 1) j m with h | ⟨t, ht, he, hf⟩
      · left; exact h
      · right
        exact ⟨t + 1, by simp; omega, by rw [he]; omega, by simpa using hf⟩
    | true =>
      have hstep : argmaxFrom i (some (j, m)) ((x, true) :: rest)
          = argmaxFrom (i + 1)
              (if x > m then some (i, x) else some (j, m)) rest := by
        simp [argmaxFrom]
      by_cases hxm : x > m
      · rw [hstep, if_pos hxm]
        rcases ih (i + 1) i x with h | ⟨t, ht, he, hf⟩
        · right; exact ⟨0, by simp, by simpa using h, rfl⟩
        · right
          exact ⟨t + 1, by simp; omega, by rw [he]; omega, by simpa using hf⟩
      · rw [hstep, if_neg hxm]
        rcases ih (i + 1) j m with h | ⟨t, ht, he, hf⟩
        · left; exact h
        · right
          exact ⟨t + 1, by simp; omega, by rw [he]; omega, by simpa using hf⟩

lemma argmaxFrom_none_spec (l : List (ℚ × Bool)) : ∀ i,
    argmaxFrom i none l = 0 ∨
      ∃ t, ∃ ht : t < l.length,
        argmaxFrom i none l = i + t ∧ l[t].2 = true := by
  induction l with
  | nil =>
    intro i
    left
    rfl
  | cons xb rest ih =>
    intro i
    obtain ⟨x, b⟩ := xb
    cases b with
    | false =>
      have hstep : argmaxFrom i none ((x, false) :: rest)
          = argmaxFrom (i + 1) none rest := by
        simp [argmaxFrom]
      rw [hstep]
      rcases ih (i + 1) with h | ⟨t, ht, he, hf⟩
      · left; exact h
      · right
        exact ⟨t + 1, by simp; omega, by rw [he]; omega, by simpa using hf⟩
    | true =>
      have hstep : argmaxFrom i none ((x, true) :: rest)
          = argmaxFrom (i + 1) (some (i, x)) rest := by
        simp [argmaxFrom]
      rw [hstep]
      rcases argmaxFrom_some_spec rest (i + 1) i x with h | ⟨t, ht, he, hf⟩
      · right; exact ⟨0, by simp, by simpa using h, rfl⟩
      · right
        exact ⟨t + 1, by simp; omega, by rw [he]; omega, by simpa using hf⟩

lemma length_dot_nd (query : Vec) (candidates : List Vec) :
    (dot_nd query candidates).length = candidates.length := by
  simp [dot_nd]

/-- Both selection policies return a hard one-hot over the candidate axis,
located at a mask-valid position or at the default position 0. -/
lemma greedy_select_spec (logits : List ℚ) (mask : List Bool) (uw : Bool)
    (weights : List ℚ) (base : ℚ) :
    ∃ k, greedy_select logits mask uw weights base = onehot logits.length k ∧
      (k = 0 ∨ ∃ hk : k < mask.length, mask[k] = true) := by
  unfold greedy_select
  refine ⟨argmaxFrom 0 none
    ((if uw then List.zipWith (fun lg w => lg + base * w) logits weights
      else logits).zip mask), rfl, ?_⟩
  generalize (if uw then List.zipWith (fun lg w => lg + base * w) logits weights
      else logits) = eff
  rcases argmaxFrom_none_spec (eff.zip mask) 0 with h | ⟨t, ht, he, hf⟩
  · left; exact h
  · right
    have htm : t < mask.length := by
      simp [List.length_zip] at ht
      omega
    have hte : t < eff.length := by
      simp [List.length_zip] at ht
      omega
    rw [List.getElem_zip] at hf
    have he2 : argmaxFrom 0 none (eff.zip mask) = t := by omega
    rw [he2]
    exact ⟨htm, hf⟩

lemma st_gumbel_softmax_spec (logits : List ℚ) (temperature : ℚ)
    (mask : List Bool) (uw : Bool) (weights : List ℚ) (base : ℚ)
    (noise : List ℚ) :
    ∃ k, st_gumbel_softmax logits temperature mask uw weights base noise
        = onehot logits.length k ∧
      (k = 0 ∨ ∃ hk : k < mask.length, mask[k] = true) := by
  unfold st_gumbel_softmax
  refine ⟨argmaxFrom 0 none
    ((List.zipWith (fun lg g => (lg + g) / temperature)
        (if uw then List.zipWith (fun lg w => lg + base * w) logits weights
         else logits) noise).zip mask), rfl, ?_⟩
  generalize (List.zipWith (fun lg g => (lg + g) / temperature)
      (if uw then List.zipWith (fun lg w => lg + base * w) logits weights
       else logits) noise) = noisy
  rcases argmaxFrom_none_spec (noisy.zip mask) 0 with h | ⟨t, ht, he, hf⟩
  · left; exact h
  · right
    have htm : t < mask.length := by
      simp [List.length_zip] at ht
      omega
    have hte : t < noisy.length := by
      simp [List.length_zip] at ht
      omega
    rw [List.getElem_zip] at hf
    have he2 : argmaxFrom 0 none (noisy.zip mask) = t := by omega
    rw [he2]
    exact ⟨htm, hf⟩

/-- Whatever the mode, `select_composition` blends with a hard one-hot over
the `new_state.h.length` candidates, at position 0 or at a mask-valid one. -/
lemma select_composition_spec (query : Vec) (training : Bool) (temperature : ℚ)
    (uw : Bool) (base : ℚ) (noise : List ℚ) (mask : List Bool)
    (old_state new_state : RowState) :
    ∃ k, select_composition query training temperature uw base noise mask
          old_state new_state
        = ((select_composition_blend old_state new_state
              (onehot new_state.h.length k)).1,
           onehot new_state.h.length k,
           (select_composition_blend old_state new_state
              (onehot new_state.h.length k)).2) ∧
      (k = 0 ∨ ∃ hk : k < mask.length, mask[k] = true) := by
  unfold select_composition
  cases training with
  | false =>
    obtain ⟨k, hsel, hval⟩ := greedy_select_spec (dot_nd query new_state.h) mask
      uw new_state.lens base
    rw [length_dot_nd] at hsel
    exact ⟨k, by simp [hsel], hval⟩
  | true =>
    obtain ⟨k, hsel, hval⟩ := st_gumbel_softmax_spec (dot_nd query new_state.h)
      temperature mask uw new_state.lens base noise
    rw [length_dot_nd] at hsel
    exact ⟨k, by simp [hsel], hval⟩

/-! ### `sequence_mask` entries -/

lemma length_sequence_mask (L maxLen : ℕ) :
    (sequence_mask L maxLen).length = maxLen := by
  simp [sequence_mask]

lemma getElem_sequence_mask (L maxLen j : ℕ)
    (hj : j < (sequence_mask L maxLen).length) :
    (sequence_mask L maxLen)[j] = decide (j < L) := by
  simp [sequence_mask]

lemma getD_sequence_mask (L maxLen j : ℕ) (hj : j < maxLen) :
    (sequence_mask L maxLen).getD j false = decide (j < L) := by
  have hj2 : j < (sequence_mask L maxLen).length := by
    rw [length_sequence_mask]; exact hj
  rw [List.getD_eq_getElem _ _ hj2, getElem_sequence_mask]

/-! ### The two shapes a `rowStep` can take -/

lemma rowStep_eq_select (ν : Numerics) (p : Params) (training : Bool)
    (nz : List ℚ) (maxDepth L i : ℕ) (s : RowState) (hib : i < maxDepth - 2) :
    rowStep ν p training nz maxDepth L i s
      = (update_state s
          (select_composition p.comp_query training p.gumbel_temperature
            p.weighted_by_interval_length p.weighted_base nz
            ((sequence_mask L maxDepth).drop (i + 1)) s
            (ComposeCell.forward ν p.cell s.leftSlice s.rightSlice)).1
          (if (sequence_mask L maxDepth).getD (i + 1) false then 1 else 0),
         some (select_composition p.comp_query training p.gumbel_temperature
            p.weighted_by_interval_length p.weighted_base nz
            ((sequence_mask L maxDepth).drop (i + 1)) s
            (ComposeCell.forward ν p.cell s.leftSlice s.rightSlice)).2.1) := by
  simp only [rowStep, if_pos hib]

lemma rowStep_eq_last (ν : Numerics) (p : Params) (training : Bool)
    (nz : List ℚ) (maxDepth L i : ℕ) (s : RowState)
    (hib : ¬ i < maxDepth - 2) :
    rowStep ν p training nz maxDepth L i s
      = (update_state s (ComposeCell.forward ν p.cell s.leftSlice s.rightSlice)
          (if (sequence_mask L maxDepth).getD (i + 1) false then 1 else 0),
         none) := by
  simp only [rowStep, if_neg hib]

/-! ### Shape preservation across one iteration -/

lemma update_state_shape (cell : ComposeCell) (old_state new_state : RowState)
    (d : ℚ) (n H : ℕ) (hold : StateShape cell old_state n H)
    (hnew : StateShape cell new_state (n - 1) H) :
    StateShape cell (update_state old_state new_state d) (n - 1) H := by
  obtain ⟨⟨hohl, hohH⟩, holens, hoc⟩ := hold
  obtain ⟨⟨hnhl, hnhH⟩, hnlens, hnc⟩ := hnew
  refine ⟨⟨?_, ?_⟩, ?_, ?_⟩
  · simp only [update_state, List.length_zipWith, List.length_dropLast, hohl, hnhl]
    omega
  · intro i hi
    have hi2 : i < n - 1 := by
      simp only [update_state, List.length_zipWith, List.length_dropLast,
        hohl, hnhl] at hi
      omega
    have hb1 : i < new_state.h.length := by omega
    have hb2 : i < old_state.h.dropLast.length := by
      rw [List.length_dropLast]; omega
    simp only [update_state, List.getElem_zipWith]
    rw [length_vadd, length_smul, length_smul, hnhH i hb1,
        List.getElem_dropLast, hohH i (by omega), min_self]
  · simp only [update_state, List.length_zipWith, List.length_dropLast,
      holens, hnlens]
    omega
  · cases hcell : cell with
    | treelstm layer =>
      rw [hcell] at hoc hnc
      cases hcs : old_state.c with
      | none => rw [hcs] at hoc; exact absurd hoc (by simp)
      | some oc =>
        cases hns : new_state.c with
        | none => rw [hns] at hnc; exact absurd hnc (by simp)
        | some nc =>
          rw [hcs] at hoc; rw [hns] at hnc
          have hoc2 : VecsShape oc n H := hoc
          have hnc2 : VecsShape nc (n - 1) H := hnc
          simp only [update_state, hcs, hns]
          refine ⟨?_, ?_⟩
          · simp only [List.length_zipWith, List.length_dropLast, hoc2.1, hnc2.1]
            omega
          · intro i hi
            have hi2 : i < n - 1 := by
              simp only [List.length_zipWith, List.length_dropLast,
                hoc2.1, hnc2.1] at hi
              omega
            have hb1 : i < nc.length := by rw [hnc2.1]; omega
            have hb2 : i < oc.dropLast.length := by
              rw [List.length_dropLast, hoc2.1]; omega
            simp only [List.getElem_zipWith]
            rw [length_vadd, length_smul, length_smul, hnc2.2 i hb1,
                List.getElem_dropLast, hoc2.2 i (by rw [hoc2.1]; omega), min_self]
    | simple lin =>
      rw [hcell] at hoc hnc
      cases hcs : old_state.c with
      | some oc => rw [hcs] at hoc; exact absurd hoc (by simp)
      | none =>
        cases hns : new_state.c with
        | some nc => rw [hns] at hnc; exact absurd hnc (by simp)
        | none => simp [update_state, hcs, hns]

lemma select_blend_shape (cell : ComposeCell) (old_state new_state : RowState)
    (k n H : ℕ) (hk : k + 1 < n) (hold : StateShape cell old_state n H)
    (hnew : StateShape cell new_state (n - 1) H) :
    StateShape cell ((select_composition_blend old_state new_state
        (onehot (n - 1) k)).1) (n - 1) H := by
  obtain ⟨hoh, holens, hoc⟩ := hold
  obtain ⟨hnh, hnlens, hnc⟩ := hnew
  refine ⟨?_, ?_, ?_⟩
  · rw [select_blend_h old_state new_state k n H hk hoh.1 hnh.1 hoh.2 hnh.2]
    apply vecsShape_of_mem
    · simp only [List.length_append, List.length_take, List.length_drop,
        hoh.1, hnh.1]
      omega
    · intro v hv
      rcases List.mem_append.mp hv with hv1 | hv2
      · rcases List.mem_append.mp hv1 with hva | hvb
        · exact vecsShape_mem hoh v (List.take_subset _ _ hva)
        · exact vecsShape_mem hnh v
            (List.drop_subset _ _ (List.take_subset _ _ hvb))
      · exact vecsShape_mem hoh v (List.drop_subset _ _ hv2)
  · rw [select_blend_lens old_state new_state k n hk holens hnlens]
    simp only [List.length_append, List.length_take, List.length_drop,
      holens, hnlens]
    omega
  · cases hcell : cell with
    | treelstm layer =>
      rw [hcell] at hoc hnc
      cases hcs : old_state.c with
      | none => rw [hcs] at hoc; exact absurd hoc (by simp)
      | some oc =>
        cases hns : new_state.c with
        | none => rw [hns] at hnc; exact absurd hnc (by simp)
        | some nc =>
          rw [hcs] at hoc; rw [hns] at hnc
          have hoc2 : VecsShape oc n H := hoc
          have hnc2 : VecsShape nc (n - 1) H := hnc
          rw [select_blend_c_some old_state new_state nc oc k n H hk hns hcs
            hoc2.1 hnc2.1 hoc2.2 hnc2.2]
          apply vecsShape_of_mem
          · simp only [List.length_append, List.length_take, List.length_drop,
              hoc2.1, hnc2.1]
            omega
          · intro v hv
            rcases List.mem_append.mp hv with hv1 | hv2
            · rcases List.mem_append.mp hv1 with hva | hvb
              · exact vecsShape_mem hoc2 v (List.take_subset _ _ hva)
              · exact vecsShape_mem hnc2 v
                  (List.drop_subset _ _ (List.take_subset _ _ hvb))
            · exact vecsShape_mem hoc2 v (List.drop_subset _ _ hv2)
    | simple lin =>
      rw [hcell] at hoc hnc
      cases hns : new_state.c with
      | some nc => rw [hns] at hnc; exact absurd hnc (by simp)
      | none =>
        rw [select_blend_c_none old_state new_state _ hns]
        trivial

lemma rowStep_shape (ν : Numerics) (p : Params) (training : Bool) (nz : List ℚ)
    (maxDepth L i : ℕ) (s : RowState) (n H : ℕ) (hn : n = maxDepth - i)
    (h2 : 2 ≤ n) (hwf : ComposeCell.WF H p.cell)
    (hs : StateShape p.cell s n H) :
    StateShape p.cell (rowStep ν p training nz maxDepth L i s).1 (n - 1) H := by
  have hnew := cellForward_shape ν p.cell s n H hwf hs
  by_cases hib : i < maxDepth - 2
  · rw [rowStep_eq_select ν p training nz maxDepth L i s hib]
    obtain ⟨k, hsc, hval⟩ := select_composition_spec p.comp_query training
      p.gumbel_temperature p.weighted_by_interval_length p.weighted_base nz
      ((sequence_mask L maxDepth).drop (i + 1)) s
      (ComposeCell.forward ν p.cell s.leftSlice s.rightSlice)
    rw [hsc]
    simp only
    have hkn : k + 1 < n := by
      rcases hval with h0 | ⟨hk, hkv⟩
      · omega
      · rw [List.length_drop, length_sequence_mask] at hk
        omega
    have hhn : (ComposeCell.forward ν p.cell s.leftSlice s.rightSlice).h.length
        = n - 1 := hnew.1.1
    rw [hhn]
    exact update_state_shape p.cell s _ _ n H hs
      (select_blend_shape p.cell s _ k n H hkn hs hnew)
  · rw [rowStep_eq_last ν p training nz maxDepth L i s hib]
    simp only
    exact update_state_shape p.cell s _ _ n H hs hnew

lemma rowStateAt_shape (ν : Numerics) (p : Params) (training : Bool)
    (noise : ℕ → List ℚ) (maxDepth L : ℕ) (s0 : RowState) (H : ℕ)
    (hwf : ComposeCell.WF H p.cell) (hs0 : StateShape p.cell s0 maxDepth H) :
    ∀ i, i ≤ maxDepth - 1 →
      StateShape p.cell (rowStateAt ν p training noise maxDepth L s0 i)
        (maxDepth - i) H := by
  intro i
  induction i with
  | zero =>
    intro _
    simpa [rowStateAt] using hs0
  | succ i ih =>
    intro hi
    have hprev := ih (by omega)
    have h2 : 2 ≤ maxDepth - i := by omega
    have hstep := rowStep_shape ν p training (noise i) maxDepth L i _
      (maxDepth - i) H rfl h2 hwf hprev
    have heq : maxDepth - i - 1 = maxDepth - (i + 1) := by omega
    rw [heq] at hstep
    simpa [rowStateAt] using hstep

/-! ### A finished row is only truncated; an active row takes the new state -/

lemma rowStep_frozen (ν : Numerics) (p : Params) (training : Bool) (nz : List ℚ)
    (maxDepth L i : ℕ) (s : RowState) (n H : ℕ) (hn : n = maxDepth - i)
    (h2 : 2 ≤ n) (hi1 : i + 1 < maxDepth) (hdone : L ≤ i + 1)
    (hwf : ComposeCell.WF H p.cell) (hs : StateShape p.cell s n H) :
    (rowStep ν p training nz maxDepth L i s).1 = s.leftSlice := by
  have hnew := cellForward_shape ν p.cell s n H hwf hs
  have hflag : (if (sequence_mask L maxDepth).getD (i + 1) false
      then (1 : ℚ) else 0) = 0 := by
    rw [getD_sequence_mask L maxDepth (i + 1) hi1]
    simp
    omega
  by_cases hib : i < maxDepth - 2
  · rw [rowStep_eq_select ν p training nz maxDepth L i s hib]
    obtain ⟨k, hsc, hval⟩ := select_composition_spec p.comp_query training
      p.gumbel_temperature p.weighted_by_interval_length p.weighted_base nz
      ((sequence_mask L maxDepth).drop (i + 1)) s
      (ComposeCell.forward ν p.cell s.leftSlice s.rightSlice)
    rw [hsc]
    simp only
    have hkn : k + 1 < n := by
      rcases hval with h0 | ⟨hk, hkv⟩
      · omega
      · rw [List.length_drop, length_sequence_mask] at hk
        omega
    have hhn : (ComposeCell.forward ν p.cell s.leftSlice s.rightSlice).h.length
        = n - 1 := hnew.1.1
    rw [hhn, hflag]
    exact update_state_done p.cell s _ n H hs
      (select_blend_shape p.cell s _ k n H hkn hs hnew)
  · rw [rowStep_eq_last ν p training nz maxDepth L i s hib]
    simp only
    rw [hflag]
    exact update_state_done p.cell s _ n H hs hnew

lemma rowStep_active_flag (maxDepth L i : ℕ) (hi1 : i + 1 < maxDepth)
    (hact : i + 1 < L) :
    (if (sequence_mask L maxDepth).getD (i + 1) false
      then (1 : ℚ) else 0) = 1 := by
  rw [getD_sequence_mask L maxDepth (i + 1) hi1]
  simp
  omega

/-! ### Span-length bookkeeping -/

lemma take_one_drop (l : List ℚ) (k : ℕ) (hk : k < l.length) :
    (l.drop k).take 1 = [l[k]] := by
  rw [List.drop_eq_getElem_cons hk]
  rfl

lemma sum_take_two_drop (l : List ℚ) (k : ℕ) (hk : k + 1 < l.length) :
    l.sum = (l.take k).sum + l[k] + l[k + 1] + (l.drop (k + 2)).sum := by
  have h1 : l.drop k = l[k] :: l.drop (k + 1) :=
    List.drop_eq_getElem_cons (by omega)
  have h2 : l.drop (k + 1) = l[k + 1] :: l.drop (k + 2) :=
    List.drop_eq_getElem_cons hk
  conv_lhs => rw [← List.take_append_drop k l, h1, h2]
  simp only [List.sum_append, List.sum_cons]
  ring

lemma initLens_eq (L maxDepth : ℕ) (hLm : L ≤ maxDepth) :
    initLens L maxDepth
      = List.replicate L (1 : ℚ) ++ List.replicate (maxDepth - L) 0 := by
  unfold initLens sequence_mask
  apply List.ext_getElem
  · simp
    omega
  · intro i h1 h2
    have hi : i < maxDepth := by simpa using h1
    simp only [List.getElem_map, List.getElem_range]
    rw [getElem_replicate_append L (maxDepth - L) 1 0 i (by simp; omega)]
    by_cases hiL : i < L
    · simp [hiL]
    · simp [hiL]

lemma initLens_sum (L maxDepth : ℕ) (hLm : L ≤ maxDepth) :
    (initLens L maxDepth).sum = (L : ℚ) := by
  rw [initLens_eq L maxDepth hLm]
  simp

lemma initLens_zero (L maxDepth j : ℕ) (hLm : L ≤ maxDepth)
    (hj : j < (initLens L maxDepth).length) (hLj : L ≤ j) :
    (initLens L maxDepth)[j] = 0 := by
  have hj2 : j < maxDepth := by
    simpa [initLens, sequence_mask] using hj
  rw [List.getElem_of_eq (initLens_eq L maxDepth hLm) hj]
  rw [getElem_replicate_append L (maxDepth - L) 1 0 j (by simp; omega)]
  rw [if_neg (by omega)]

/-- The composed candidates sum adjacent lens entries, whatever the cell. -/
lemma cellForward_lens (ν : Numerics) (cell : ComposeCell) (s : RowState) :
    (ComposeCell.forward ν cell s.leftSlice s.rightSlice).lens
      = List.zipWith (fun x y => x + y) s.lens.dropLast (s.lens.drop 1) := by
  cases cell <;> rfl

/-- One loop iteration preserves the span-length invariant of one row: the
lens channel still sums to the true length `L`, and the slots at and beyond
the surviving-node count stay zero. -/
lemma rowStep_lensInv (ν : Numerics) (p : Params) (training : Bool)
    (nz : List ℚ) (maxDepth L i : ℕ) (s : RowState) (n H : ℕ)
    (hn : n = maxDepth - i) (h2 : 2 ≤ n) (him : i + 1 < maxDepth)
    (hL1 : 1 ≤ L) (hLm : L ≤ maxDepth) (hwf : ComposeCell.WF H p.cell)
    (hs : StateShape p.cell s n H) (hsum : s.lens.sum = (L : ℚ))
    (hzero : ∀ j, (hj : j < s.lens.length) → max (L - i) 1 ≤ j →
      s.lens[j] = 0) :
    (rowStep ν p training nz maxDepth L i s).1.lens.sum = (L : ℚ) ∧
      ∀ j, (hj : j < (rowStep ν p training nz maxDepth L i s).1.lens.length) →
        max (L - (i + 1)) 1 ≤ j →
          (rowStep ν p training nz maxDepth L i s).1.lens[j] = 0 := by
  have hnew := cellForward_shape ν p.cell s n H hwf hs
  have hlensn : s.lens.length = n := hs.2.1
  by_cases hact : i + 1 < L
  case neg =>
    have hfr := rowStep_frozen ν p training nz maxDepth L i s n H hn h2 him
      (by omega) hwf hs
    rw [hfr]
    have hne : s.lens ≠ [] := by
      intro h
      rw [h] at hlensn
      simp at hlensn
      omega
    constructor
    · have hlast : s.lens.getLast hne = 0 := by
        rw [List.getLast_eq_getElem s.lens hne]
        apply hzero (s.lens.length - 1) (by omega)
        omega
      have hdecomp : s.lens.dropLast.sum + s.lens.getLast hne = s.lens.sum := by
        conv_rhs => rw [← List.dropLast_append_getLast hne]
        simp
      rw [hlast, add_zero] at hdecomp
      simpa [RowState.leftSlice] using hdecomp.trans hsum
    · intro j hj hge
      simp only [RowState.leftSlice] at hj ⊢
      rw [List.getElem_dropLast]
      apply hzero j (by simp at hj; omega)
      omega
  case pos =>
    have hflag := rowStep_active_flag maxDepth L i him hact
    by_cases hib : i < maxDepth - 2
    · rw [rowStep_eq_select ν p training nz maxDepth L i s hib]
      obtain ⟨k, hsc, hval⟩ := select_composition_spec p.comp_query training
        p.gumbel_temperature p.weighted_by_interval_length p.weighted_base nz
        ((sequence_mask L maxDepth).drop (i + 1)) s
        (ComposeCell.forward ν p.cell s.leftSlice s.rightSlice)
      rw [hsc]
      simp only
      have hkL : k < L - (i + 1) := by
        rcases hval with h0 | ⟨hk, hkv⟩
        · omega
        · rw [List.getElem_drop, getElem_sequence_mask] at hkv
          simp at hkv
          omega
      have hkn : k + 1 < n := by omega
      have hhn : (ComposeCell.forward ν p.cell s.leftSlice
          s.rightSlice).h.length = n - 1 := hnew.1.1
      rw [hhn, hflag]
      have hblsh := select_blend_shape p.cell s _ k n H hkn hs hnew
      rw [update_state_active p.cell s _ n H hs hblsh]
      have hnlen : (ComposeCell.forward ν p.cell s.leftSlice
          s.rightSlice).lens.length = n - 1 := hnew.2.1
      have hlch := select_blend_lens s _ k n hkn hlensn hnlen
      have hkl : k < (ComposeCell.forward ν p.cell s.leftSlice
          s.rightSlice).lens.length := by omega
      have hbk : k < s.lens.length := by omega
      have hbk1 : k + 1 < s.lens.length := by omega
      have hmid : ((ComposeCell.forward ν p.cell s.leftSlice
            s.rightSlice).lens.drop k).take 1
          = [s.lens[k] + s.lens[k + 1]] := by
        rw [cellForward_lens]
        rw [take_one_drop _ k (by
          rw [List.length_zipWith, List.length_dropLast, List.length_drop,
            hlensn]
          omega)]
        simp only [List.getElem_zipWith]
        rw [List.getElem_dropLast, List.getElem_drop]
        simp_rw [Nat.add_comm 1 k]
      constructor
      · rw [hlch, hmid]
        have hdec := sum_take_two_drop s.lens k (by omega)
        rw [hsum] at hdec
        simp only [List.sum_append, List.sum_cons, List.sum_nil]
        linarith
      · intro j hj hge
        have hj2 := hj
        rw [hlch] at hj2
        have hjlen : j < n - 1 := by
          simp only [List.length_append, List.length_take, List.length_drop,
            hlensn] at hj2
          omega
        have hjk : k + 1 ≤ j := by omega
        rw [List.getElem_of_eq hlch hj]
        rw [List.getElem_append_right (by simp [hlensn, hmid]; omega)]
        rw [List.getElem_drop]
        have hidx : k + 2 + (j - (s.lens.take k
            ++ ((ComposeCell.forward ν p.cell s.leftSlice
                s.rightSlice).lens.drop k).take 1).length)
              = j + 1 := by
          simp [hlensn, hmid]
          omega
        simp_rw [hidx]
        apply hzero (j + 1) (by omega)
        omega
    · rw [rowStep_eq_last ν p training nz maxDepth L i s hib]
      simp only
      rw [hflag]
      rw [update_state_active p.cell s _ n H hs hnew]
      rw [cellForward_lens]
      have hn2 : n = 2 := by omega
      obtain ⟨a, b, hab⟩ := List.length_eq_two.mp
        (show s.lens.length = 2 by omega)
      rw [hab]
      constructor
      · have : s.lens.sum = a + b := by rw [hab]; simp
        rw [this] at hsum
        simpa using hsum
      · intro j hj hge
        simp at hj
        omega

/-! ### Loop-level facts -/

lemma rowStateAt_lensInv (ν : Numerics) (p : Params) (training : Bool)
    (noise : ℕ → List ℚ) (maxDepth L : ℕ) (h0 : List Vec)
    (c0 : Option (List Vec)) (H : ℕ) (hwf : ComposeCell.WF H p.cell)
    (hs0 : StateShape p.cell ⟨h0, c0, initLens L maxDepth⟩ maxDepth H)
    (hL1 : 1 ≤ L) (hLm : L ≤ maxDepth) :
    ∀ i, i ≤ maxDepth - 1 →
      (rowStateAt ν p training noise maxDepth L ⟨h0, c0, initLens L maxDepth⟩
          i).lens.sum = (L : ℚ) ∧
      ∀ j, (hj : j < (rowStateAt ν p training noise maxDepth L
          ⟨h0, c0, initLens L maxDepth⟩ i).lens.length) →
        max (L - i) 1 ≤ j →
          (rowStateAt ν p training noise maxDepth L
            ⟨h0, c0, initLens L maxDepth⟩ i).lens[j] = 0 := by
  intro i
  induction i with
  | zero =>
    intro _
    constructor
    · simpa [rowStateAt] using initLens_sum L maxDepth hLm
    · intro j hj hge
      simp only [rowStateAt] at hj ⊢
      exact initLens_zero L maxDepth j hLm hj (by omega)
  | succ i ih =>
    intro hi
    obtain ⟨hsum, hzero⟩ := ih (by omega)
    have hshape := rowStateAt_shape ν p training noise maxDepth L _ H hwf hs0
      i (by omega)
    have hstep := rowStep_lensInv ν p training (noise i) maxDepth L i _
      (maxDepth - i) H rfl (by omega) (by omega) hL1 hLm hwf hshape hsum hzero
    simpa [rowStateAt] using hstep

lemma dropLast_take {α : Type} (l : List α) (m : ℕ) (hm : m ≤ l.length) :
    (l.take m).dropLast = l.take (m - 1) := by
  rw [List.dropLast_eq_take, List.take_take, List.length_take]
  congr 1
  omega

lemma length_forward (ν : Numerics) (p : Params) (training : Bool)
    (noises : ℕ → ℕ → List ℚ) (h0s : List (List Vec))
    (c0s : List (Option (List Vec))) (lengths : List ℕ) :
    (forward ν p training noises h0s c0s lengths).length
      = min h0s.length (min c0s.length lengths.length) := by
  simp [forward]

lemma forward_get (ν : Numerics) (p : Params) (training : Bool)
    (noises : ℕ → ℕ → List ℚ) (h0s : List (List Vec))
    (c0s : List (Option (List Vec))) (lengths : List ℕ) (b : ℕ)
    (hb : b < (forward ν p training noises h0s c0s lengths).length)
    (hb1 : b < h0s.length) (hb2 : b < c0s.length) (hb3 : b < lengths.length) :
    (forward ν p training noises h0s c0s lengths)[b]
      = rowForward ν p training (noises b) h0s[b] c0s[b] lengths[b] := by
  have hbz : b < (List.zip h0s (List.zip c0s lengths)).length := by
    simp [List.length_zip]
    omega
  simp [forward, List.getElem_map, List.getElem_enum, List.getElem_zip]

/-! ### The greedy path reads no randomness -/

lemma rowStep_noise_indep (ν : Numerics) (p : Params) (nz1 nz2 : List ℚ)
    (maxDepth L i : ℕ) (s : RowState) :
    rowStep ν p false nz1 maxDepth L i s = rowStep ν p false nz2 maxDepth L i s := by
  unfold rowStep select_composition
  simp

lemma rowStateAt_noise_indep (ν : Numerics) (p : Params)
    (noise1 noise2 : ℕ → List ℚ) (maxDepth L : ℕ) (s0 : RowState) :
    ∀ i, rowStateAt ν p false noise1 maxDepth L s0 i
        = rowStateAt ν p false noise2 maxDepth L s0 i := by
  intro i
  induction i with
  | zero => rfl
  | succ i ih =>
    simp only [rowStateAt, ih]
    rw [rowStep_noise_indep ν p (noise1 i) (noise2 i) maxDepth L i]

lemma rowTrace_noise_indep (ν : Numerics) (p : Params)
    (noise1 noise2 : ℕ → List ℚ) (maxDepth L : ℕ) (s0 : RowState) :
    ∀ i, rowTrace ν p false noise1 maxDepth L s0 i
        = rowTrace ν p false noise2 maxDepth L s0 i := by
  intro i
  induction i with
  | zero => rfl
  | succ i ih =>
    simp only [rowTrace, ih, rowStateAt_noise_indep ν p noise1 noise2 maxDepth L s0 i]
    rw [rowStep_noise_indep ν p (noise1 i) (noise2 i) maxDepth L i]

/-! ### How many selection masks are recorded -/

lemma rowTrace_length (ν : Numerics) (p : Params) (training : Bool)
    (noise : ℕ → List ℚ) (maxDepth L : ℕ) (s0 : RowState) :
    ∀ i, (rowTrace ν p training noise maxDepth L s0 i).length
        = min i (maxDepth - 2) := by
  intro i
  induction i with
  | zero => simp [rowTrace]
  | succ i ih =>
    by_cases hib : i < maxDepth - 2
    · simp only [rowTrace, List.length_append, ih,
        rowStep_eq_select ν p training (noise i) maxDepth L i _ hib]
      simp
      omega
    · simp only [rowTrace, List.length_append, ih,
        rowStep_eq_last ν p training (noise i) maxDepth L i _ hib]
      simp
      omega

/-- `rowForward`, written out. -/
lemma rowForward_def (ν : Numerics) (p : Params) (training : Bool)
    (noise : ℕ → List ℚ) (h0 : List Vec) (c0 : Option (List Vec)) (L : ℕ) :
    rowForward ν p training noise h0 c0 L
      = (rowStateAt ν p training noise h0.length L
          ⟨h0, c0, initLens L h0.length⟩ (h0.length - 1),
         rowTrace ν p training noise h0.length L
          ⟨h0, c0, initLens L h0.length⟩ (h0.length - 1)) := rfl

/-! ### Concrete instances for closed evaluations -/

/-- A computable activation pair, for closed witness evaluations. -/
def idNumerics : Numerics := ⟨fun x => x, fun x => x⟩

/-- The `H = 1` simple cell whose affine map sums the two hidden scalars. -/
def sumLin : Linear := ⟨[[1, 1]], [0]⟩

/-- An `H = 1` gated cell with concrete weights and zero bias. -/
def tinyTreeLayer : BinaryTreeLSTMLayer :=
  ⟨1, ⟨[[1, 0], [0, 1], [1, 1], [2, 0], [0, 2]], [0, 0, 0, 0, 0]⟩⟩

/-- Engine parameters for the simple cell, zero scorer query, no weighting. -/
def simpleParams : Params := ⟨.simple sumLin, [0], 1, false, 0⟩

/-- Engine parameters for the gated cell. -/
def treeParams : Params := ⟨.treelstm tinyTreeLayer, [1], 1, false, 0⟩

/-- A concrete three-slot gated row state used by witnesses. -/
def rowC1 : RowState := ⟨[[1], [2], [3]], some [[1], [1], [1]], [1, 1, 1]⟩

/-! ### The claims -/

/-- Claim C1: level-transition mask correctness.  For one iteration on a row
of current length `n`, if the selection vector is a hard one-hot at candidate
position `p < n - 1`, the next node array equals, element-wise on the hidden,
cell and span-length channels alike: positions before `p` unchanged from the
old array's left-sliced slots, position `p` the newly composed merged node at
`p`, and the positions after `p` the old array's right-sliced slots (old
positions shifted left by one). -/
theorem claim_C1_mask_correctness (ν : Numerics) (p : Params)
    (old_state : RowState) (pp n H : ℕ) (hp : pp + 1 < n)
    (hwf : ComposeCell.WF H p.cell) (hs : StateShape p.cell old_state n H) :
    let new_state := ComposeCell.forward ν p.cell old_state.leftSlice
      old_state.rightSlice
    let nextRow := (select_composition_blend old_state new_state
      (onehot (n - 1) pp)).1
    nextRow.h = old_state.h.take pp ++ (new_state.h.drop pp).take 1
        ++ old_state.h.drop (pp + 2) ∧
    nextRow.lens = old_state.lens.take pp ++ (new_state.lens.drop pp).take 1
        ++ old_state.lens.drop (pp + 2) ∧
    ∀ nc oc, new_state.c = some nc → old_state.c = some oc →
      nextRow.c = some (oc.take pp ++ (nc.drop pp).take 1
        ++ oc.drop (pp + 2)) := by
  intro new_state nextRow
  have hnew := cellForward_shape ν p.cell old_state n H hwf hs
  refine ⟨?_, ?_, ?_⟩
  · exact select_blend_h old_state new_state pp n H hp hs.1.1 hnew.1.1
      hs.1.2 hnew.1.2
  · exact select_blend_lens old_state new_state pp n hp hs.2.1 hnew.2.1
  · intro nc oc hnc hoc
    cases hcell : p.cell with
    | simple lin =>
      have : new_state.c = none := by
        show (ComposeCell.forward ν p.cell old_state.leftSlice
          old_state.rightSlice).c = none
        rw [hcell, cellForward_simple_def]
      rw [this] at hnc
      exact absurd hnc (by simp)
    | treelstm layer =>
      have hnc2 : (ComposeCell.forward ν p.cell old_state.leftSlice
          old_state.rightSlice).c = some nc := hnc
      have hocs := hs.2.2
      have hncs := hnew.2.2
      rw [hoc, hcell] at hocs
      rw [hnc2, hcell] at hncs
      have hoc3 : VecsShape oc n H := hocs
      have hnc3 : VecsShape nc (n - 1) H := hncs
      exact select_blend_c_some old_state new_state nc oc pp n H hp hnc hoc
        hoc3.1 hnc3.1 hoc3.2 hnc3.2

/-- Witness for claim C1 at a concrete gated three-slot row with `p = 1`. -/
theorem claim_C1_witness :
    ((1 : ℕ) + 1 < 3 ∧ ComposeCell.WF 1 treeParams.cell ∧
      StateShape treeParams.cell rowC1 3 1) ∧
    (let new_state := ComposeCell.forward idNumerics treeParams.cell
      rowC1.leftSlice rowC1.rightSlice
     let nextRow := (select_composition_blend rowC1 new_state
      (onehot (3 - 1) 1)).1
     nextRow.h = rowC1.h.take 1 ++ (new_state.h.drop 1).take 1
        ++ rowC1.h.drop (1 + 2) ∧
     nextRow.lens = rowC1.lens.take 1 ++ (new_state.lens.drop 1).take 1
        ++ rowC1.lens.drop (1 + 2) ∧
     ∀ nc oc, new_state.c = some nc → rowC1.c = some oc →
       nextRow.c = some (oc.take 1 ++ (nc.drop 1).take 1
        ++ oc.drop (1 + 2))) :=
  ⟨⟨by decide, ⟨rfl, rfl, rfl⟩, ⟨⟨rfl, by decide⟩, rfl, ⟨rfl, by decide⟩⟩⟩,
   claim_C1_mask_correctness idNumerics treeParams rowC1 1 3 1 (by decide)
     ⟨rfl, rfl, rfl⟩ ⟨⟨rfl, by decide⟩, rfl, ⟨rfl, by decide⟩⟩⟩

/-- Claim C2: span conservation.  For every row and at every iteration of the
forward pass, the sum of the `span_length` channel over the row's surviving
nodes equals the row's true original length `L`; the second conjunct shows the
padding slots at and beyond the surviving-node count `max (L - i) 1` stay
zero, so the sum over all slots is the sum over surviving nodes. -/
theorem claim_C2_span_conservation (ν : Numerics) (p : Params) (training : Bool)
    (noise : ℕ → List ℚ) (maxDepth L H : ℕ) (h0 : List Vec)
    (c0 : Option (List Vec)) (hwf : ComposeCell.WF H p.cell)
    (hs0 : StateShape p.cell ⟨h0, c0, initLens L maxDepth⟩ maxDepth H)
    (hL1 : 1 ≤ L) (hLm : L ≤ maxDepth) :
    ∀ i, i ≤ maxDepth - 1 →
      (rowStateAt ν p training noise maxDepth L ⟨h0, c0, initLens L maxDepth⟩
          i).lens.sum = (L : ℚ) ∧
      ∀ j, (hj : j < (rowStateAt ν p training noise maxDepth L
          ⟨h0, c0, initLens L maxDepth⟩ i).lens.length) →
        max (L - i) 1 ≤ j →
          (rowStateAt ν p training noise maxDepth L
            ⟨h0, c0, initLens L maxDepth⟩ i).lens[j] = 0 :=
  rowStateAt_lensInv ν p training noise maxDepth L h0 c0 H hwf hs0 hL1 hLm

/-- Witness for claim C2: a gated row of true length 2 inside a three-slot
batch keeps `lens` summing to 2 after both iterations. -/
theorem claim_C2_witness :
    (ComposeCell.WF 1 treeParams.cell ∧
      StateShape treeParams.cell ⟨[[1], [2], [3]], some [[1], [1], [1]],
        initLens 2 3⟩ 3 1 ∧ 1 ≤ 2 ∧ 2 ≤ 3) ∧
    (rowStateAt idNumerics treeParams false (fun _ => []) 3 2
        ⟨[[1], [2], [3]], some [[1], [1], [1]], initLens 2 3⟩ 2).lens.sum
      = ((2 : ℕ) : ℚ) :=
  ⟨⟨⟨rfl, rfl, rfl⟩, ⟨⟨rfl, by decide⟩, rfl, ⟨rfl, by decide⟩⟩,
     by decide, by decide⟩,
   (claim_C2_span_conservation idNumerics treeParams false (fun _ => []) 3 2 1
     [[1], [2], [3]] (some [[1], [1], [1]]) ⟨rfl, rfl, rfl⟩
     ⟨⟨rfl, by decide⟩, rfl, ⟨rfl, by decide⟩⟩ (by decide) (by decide)
     2 (by decide)).1⟩

/-- Claim C3: frozen-row invariance.  For a row of true length `L`, from
iteration `L - 1` on, each further iteration changes the row state only by the
one-slot-per-iteration capacity truncation: the next state is exactly the
previous one with its last slot dropped on the hidden, cell, and span-length
channels, so the surviving nodes are unchanged and every `update_state`
application is a no-op for the row. -/
theorem claim_C3_frozen_rows (ν : Numerics) (p : Params) (training : Bool)
    (noise : ℕ → List ℚ) (maxDepth L H : ℕ) (h0 : List Vec)
    (c0 : Option (List Vec)) (hwf : ComposeCell.WF H p.cell)
    (hs0 : StateShape p.cell ⟨h0, c0, initLens L maxDepth⟩ maxDepth H) :
    ∀ i, L - 1 ≤ i → i + 1 ≤ maxDepth - 1 →
      rowStateAt ν p training noise maxDepth L ⟨h0, c0, initLens L maxDepth⟩
          (i + 1)
        = (rowStateAt ν p training noise maxDepth L
            ⟨h0, c0, initLens L maxDepth⟩ i).leftSlice := by
  intro i hLi hiM
  have hshape := rowStateAt_shape ν p training noise maxDepth L _ H hwf hs0
    i (by omega)
  have hstep := rowStep_frozen ν p training (noise i) maxDepth L i _
    (maxDepth - i) H rfl (by omega) (by omega) (by omega) hwf hshape
  simpa [rowStateAt] using hstep

/-- Witness for claim C3: a row of true length 2 in a three-slot batch is
only truncated by its second iteration. -/
theorem claim_C3_witness :
    (ComposeCell.WF 1 treeParams.cell ∧
      StateShape treeParams.cell ⟨[[1], [2], [3]], some [[1], [1], [1]],
        initLens 2 3⟩ 3 1 ∧ 2 - 1 ≤ 1 ∧ 1 + 1 ≤ 3 - 1) ∧
    rowStateAt idNumerics treeParams false (fun _ => []) 3 2
        ⟨[[1], [2], [3]], some [[1], [1], [1]], initLens 2 3⟩ (1 + 1)
      = (rowStateAt idNumerics treeParams false (fun _ => []) 3 2
          ⟨[[1], [2], [3]], some [[1], [1], [1]], initLens 2 3⟩ 1).leftSlice :=
  ⟨⟨⟨rfl, rfl, rfl⟩, ⟨⟨rfl, by decide⟩, rfl, ⟨rfl, by decide⟩⟩,
     by decide, by decide⟩,
   claim_C3_frozen_rows idNumerics treeParams false (fun _ => []) 3 2 1
     [[1], [2], [3]] (some [[1], [1], [1]]) ⟨rfl, rfl, rfl⟩
     ⟨⟨rfl, by decide⟩, rfl, ⟨rfl, by decide⟩⟩ 1 (by decide) (by decide)⟩

/-- Claim C4: single-root termination.  For every batch whose rows are padded
to the shared `max_length`, after the `max_length - 1` iterations of the
forward loop each row's node array has length dimension 1 — one root state per
row — and the cell channel, when present, likewise holds exactly one slot
(the assert of src/model/treelstm.py line 295). -/
theorem claim_C4_single_root (ν : Numerics) (p : Params) (training : Bool)
    (noises : ℕ → ℕ → List ℚ) (h0s : List (List Vec))
    (c0s : List (Option (List Vec))) (lengths : List ℕ) (maxDepth H : ℕ)
    (hmd : 1 ≤ maxDepth) (hwf : ComposeCell.WF H p.cell)
    (hrows : ∀ b, (hb1 : b < h0s.length) → (hb2 : b < c0s.length) →
      (hb3 : b < lengths.length) →
      h0s[b].length = maxDepth ∧
      StateShape p.cell ⟨h0s[b], c0s[b], initLens lengths[b] maxDepth⟩
        maxDepth H) :
    ∀ b, (hb : b < (forward ν p training noises h0s c0s lengths).length) →
      (forward ν p training noises h0s c0s lengths)[b].1.h.length = 1 ∧
      ∀ cs, (forward ν p training noises h0s c0s lengths)[b].1.c = some cs →
        cs.length = 1 := by
  intro b hb
  have hbm := hb
  rw [length_forward ν p training noises h0s c0s lengths] at hbm
  have hb1 : b < h0s.length := lt_of_lt_of_le hbm (min_le_left _ _)
  have hb2 : b < c0s.length :=
    lt_of_lt_of_le hbm (le_trans (min_le_right _ _) (min_le_left _ _))
  have hb3 : b < lengths.length :=
    lt_of_lt_of_le hbm (le_trans (min_le_right _ _) (min_le_right _ _))
  rw [forward_get ν p training noises h0s c0s lengths b hb hb1 hb2 hb3]
  obtain ⟨hbl, hbs⟩ := hrows b hb1 hb2 hb3
  rw [rowForward_def]
  simp only
  rw [hbl]
  have hsh := rowStateAt_shape ν p training (noises b) maxDepth
    (lengths[b]) _ H hwf hbs (maxDepth - 1) (le_refl _)
  constructor
  · rw [hsh.1.1]
    omega
  · intro cs hcs
    have hc := hsh.2.2
    cases hcell : p.cell with
    | simple lin =>
      rw [hcell, hcs] at hc
      exact absurd hc (by simp)
    | treelstm layer =>
      rw [hcs, hcell] at hc
      have hc2 : VecsShape cs (maxDepth - (maxDepth - 1)) H := hc
      rw [hc2.1]
      omega

/-- Witness for claim C4: a two-row batch of two-slot rows ends with one root
per row. -/
theorem claim_C4_witness :
    (ComposeCell.WF 1 simpleParams.cell ∧
      0 < (forward idNumerics simpleParams false (fun _ _ => [])
        [[[1], [2]], [[3], [4]]] [none, none] [2, 1]).length) ∧
    ((forward idNumerics simpleParams false (fun _ _ => [])
        [[[1], [2]], [[3], [4]]] [none, none] [2, 1]).getD 0
        (⟨[], none, []⟩, [])).1.h.length = 1 := by
  have hb : 0 < (forward idNumerics simpleParams false (fun _ _ => [])
      [[[1], [2]], [[3], [4]]] [none, none] [2, 1]).length := by
    rw [length_forward]
    decide
  refine ⟨⟨⟨rfl, rfl⟩, hb⟩, ?_⟩
  rw [List.getD_eq_getElem _ _ hb]
  refine (claim_C4_single_root idNumerics simpleParams false (fun _ _ => [])
    [[[1], [2]], [[3], [4]]] [none, none] [2, 1] 2 1 (by decide) ⟨rfl, rfl⟩
    ?_ 0 hb).1
  intro b hb1 hb2 hb3
  have hbb : b < 2 := by simpa using hb1
  interval_cases b
  · show ([[(1 : ℚ)], [2]] : List Vec).length = 2 ∧
      StateShape simpleParams.cell ⟨[[1], [2]], none, initLens 2 2⟩ 2 1
    exact ⟨rfl, ⟨rfl, by decide⟩, rfl, trivial⟩
  · show ([[(3 : ℚ)], [4]] : List Vec).length = 2 ∧
      StateShape simpleParams.cell ⟨[[3], [4]], none, initLens 1 2⟩ 2 1
    exact ⟨rfl, ⟨rfl, by decide⟩, rfl, trivial⟩

/-! ### C5: the golden end-to-end example -/

lemma dot_zero_single (v : Vec) : dot [(0 : ℚ)] v = 0 := by
  cases v <;> simp [dot]

/-- **C5** (counterexample to the claim as stated): the golden run — 4 leaves
of hidden values 1, 2, 3, 4, H = 1, the simple cell with sum weights (so a
merge is sigmoid of l + r), zero composition query so greedy selection always
takes the leftmost pair — records exactly 2 selection masks, not the 3 the
claim asserts: the loop appends a `select_mask` only for iterations
`i < max_depth - 2` (src/model/treelstm.py lines 253-274), so the final
forced merge of the last two nodes leaves no trace entry. Evaluated here
with the identity activations, which do not affect the trace length. -/
theorem claim_C5_counterexample :
    (rowForward idNumerics simpleParams false (fun _ => [])
        [[1], [2], [3], [4]] none 4).2.length = 2 ∧
      ¬ (rowForward idNumerics simpleParams false (fun _ => [])
        [[1], [2], [3], [4]] none 4).2.length = 3 := by
  constructor
  · decide
  · decide

/-- **C5** (amended): in the golden run the greedy zero-query selection merges
the leftmost pair at every level; the recorded trace is the two masks
`[1,0,0]` and `[1,0]` (the final merge is forced and unrecorded), and the one
surviving node is the left-to-right fold
`sigmoid (sigmoid (sigmoid (1 + 2) + 3) + 4)`, of span length 4 — for every
interpretation of the activation functions. -/
theorem claim_C5_amended (ν : Numerics) :
    rowForward ν simpleParams false (fun _ => []) [[1], [2], [3], [4]] none 4
      = (⟨[[ν.sigmoid (ν.sigmoid (ν.sigmoid 3 + 3) + 4)]], none, [4]⟩,
         [[1, 0, 0], [1, 0]]) := by
  rw [rowForward_def]
  have hs0 : (⟨[[1], [2], [3], [4]], none,
      initLens 4 ([[(1 : ℚ)], [2], [3], [4]] : List Vec).length⟩ : RowState)
      = ⟨[[1], [2], [3], [4]], none, [1, 1, 1, 1]⟩ := by decide
  rw [show ([[(1 : ℚ)], [2], [3], [4]] : List Vec).length = 4 from rfl] at hs0 ⊢
  rw [hs0]
  -- iteration 0
  have hnew0 : ComposeCell.forward ν simpleParams.cell
      (⟨[[1], [2], [3], [4]], none, [1, 1, 1, 1]⟩ : RowState).leftSlice
      (⟨[[1], [2], [3], [4]], none, [1, 1, 1, 1]⟩ : RowState).rightSlice
      = ⟨[[ν.sigmoid 3], [ν.sigmoid 5], [ν.sigmoid 7]], none, [2, 2, 2]⟩ := by
    show ComposeCell.forward ν (.simple sumLin) _ _ = _
    rw [cellForward_simple_def]
    simp [RowState.leftSlice, RowState.rightSlice, Linear.apply, sumLin, dot]
    norm_num
  have hw0 : dot_nd [(0 : ℚ)]
      [[ν.sigmoid 3], [ν.sigmoid 5], [ν.sigmoid 7]] = [0, 0, 0] := by
    simp [dot_nd, dot_zero_single]
  have hsc0 : select_composition simpleParams.comp_query false
      simpleParams.gumbel_temperature simpleParams.weighted_by_interval_length
      simpleParams.weighted_base [] ((sequence_mask 4 4).drop (0 + 1))
      ⟨[[1], [2], [3], [4]], none, [1, 1, 1, 1]⟩
      ⟨[[ν.sigmoid 3], [ν.sigmoid 5], [ν.sigmoid 7]], none, [2, 2, 2]⟩
      = ((select_composition_blend
          ⟨[[1], [2], [3], [4]], none, [1, 1, 1, 1]⟩
          ⟨[[ν.sigmoid 3], [ν.sigmoid 5], [ν.sigmoid 7]], none, [2, 2, 2]⟩
          [1, 0, 0]).1, [1, 0, 0],
         (select_composition_blend
          ⟨[[1], [2], [3], [4]], none, [1, 1, 1, 1]⟩
          ⟨[[ν.sigmoid 3], [ν.sigmoid 5], [ν.sigmoid 7]], none, [2, 2, 2]⟩
          [1, 0, 0]).2) := by
    simp only [select_composition, simpleParams, Bool.false_eq_true, if_false]
    rw [hw0]
    rw [show greedy_select [0, 0, 0] ((sequence_mask 4 4).drop (0 + 1))
      false [2, 2, 2] 0 = [1, 0, 0] from by decide]
  have hbl0 : (select_composition_blend
      (⟨[[1], [2], [3], [4]], none, [1, 1, 1, 1]⟩ : RowState)
      ⟨[[ν.sigmoid 3], [ν.sigmoid 5], [ν.sigmoid 7]], none, [2, 2, 2]⟩
      [1, 0, 0]).1 = ⟨[[ν.sigmoid 3], [3], [4]], none, [2, 1, 1]⟩ := by
    simp [select_composition_blend, blendVecs, blendScalars, cumsum,
      vadd, smul]
  have hst1 : rowStateAt ν simpleParams false (fun _ => []) 4 4
      ⟨[[1], [2], [3], [4]], none, [1, 1, 1, 1]⟩ 1
      = ⟨[[ν.sigmoid 3], [3], [4]], none, [2, 1, 1]⟩ := by
    simp only [rowStateAt,
      rowStep_eq_select ν simpleParams false [] 4 4 0 _ (by decide),
      hnew0, hsc0, hbl0]
    rw [show ((sequence_mask 4 4).getD (0 + 1) false) = true from by decide]
    simp only [if_true]
    simp [update_state, vadd, smul]
  -- iteration 1
  have hnew1 : ComposeCell.forward ν simpleParams.cell
      (⟨[[ν.sigmoid 3], [3], [4]], none, [2, 1, 1]⟩ : RowState).leftSlice
      (⟨[[ν.sigmoid 3], [3], [4]], none, [2, 1, 1]⟩ : RowState).rightSlice
      = ⟨[[ν.sigmoid (ν.sigmoid 3 + 3)], [ν.sigmoid 7]], none, [3, 2]⟩ := by
    show ComposeCell.forward ν (.simple sumLin) _ _ = _
    rw [cellForward_simple_def]
    simp [RowState.leftSlice, RowState.rightSlice, Linear.apply, sumLin, dot]
    norm_num
  have hw1 : dot_nd [(0 : ℚ)]
      [[ν.sigmoid (ν.sigmoid 3 + 3)], [ν.sigmoid 7]] = [0, 0] := by
    simp [dot_nd, dot_zero_single]
  have hsc1 : select_composition simpleParams.comp_query false
      simpleParams.gumbel_temperature simpleParams.weighted_by_interval_length
      simpleParams.weighted_base [] ((sequence_mask 4 4).drop (1 + 1))
      ⟨[[ν.sigmoid 3], [3], [4]], none, [2, 1, 1]⟩
      ⟨[[ν.sigmoid (ν.sigmoid 3 + 3)], [ν.sigmoid 7]], none, [3, 2]⟩
      = ((select_composition_blend
          ⟨[[ν.sigmoid 3], [3], [4]], none, [2, 1, 1]⟩
          ⟨[[ν.sigmoid (ν.sigmoid 3 + 3)], [ν.sigmoid 7]], none, [3, 2]⟩
          [1, 0]).1, [1, 0],
         (select_composition_blend
          ⟨[[ν.sigmoid 3], [3], [4]], none, [2, 1, 1]⟩
          ⟨[[ν.sigmoid (ν.sigmoid 3 + 3)], [ν.sigmoid 7]], none, [3, 2]⟩
          [1, 0]).2) := by
    simp only [select_composition, simpleParams, Bool.false_eq_true, if_false]
    rw [hw1]
    rw [show greedy_select [0, 0] ((sequence_mask 4 4).drop (1 + 1))
      false [3, 2] 0 = [1, 0] from by decide]
  have hbl1 : (select_composition_blend
      (⟨[[ν.sigmoid 3], [3], [4]], none, [2, 1, 1]⟩ : RowState)
      ⟨[[ν.sigmoid (ν.sigmoid 3 + 3)], [ν.sigmoid 7]], none, [3, 2]⟩
      [1, 0]).1
      = ⟨[[ν.sigmoid (ν.sigmoid 3 + 3)], [4]], none, [3, 1]⟩ := by
    simp [select_composition_blend, blendVecs, blendScalars, cumsum,
      vadd, smul]
  have hst2 : rowStateAt ν simpleParams false (fun _ => []) 4 4
      ⟨[[1], [2], [3], [4]], none, [1, 1, 1, 1]⟩ 2
      = ⟨[[ν.sigmoid (ν.sigmoid 3 + 3)], [4]], none, [3, 1]⟩ := by
    have hun : rowStateAt ν simpleParams false (fun _ => []) 4 4
        ⟨[[1], [2], [3], [4]], none, [1, 1, 1, 1]⟩ 2
        = (rowStep ν simpleParams false [] 4 4 1
            (rowStateAt ν simpleParams false (fun _ => []) 4 4
              ⟨[[1], [2], [3], [4]], none, [1, 1, 1, 1]⟩ 1)).1 := rfl
    rw [hun, hst1,
      rowStep_eq_select ν simpleParams false [] 4 4 1 _ (by decide),
      hnew1, hsc1, hbl1]
    rw [show ((sequence_mask 4 4).getD (1 + 1) false) = true from by decide]
    simp only [if_true]
    simp [update_state, vadd, smul]
  -- iteration 2 (no selection: 2 is not below maxDepth - 2)
  have hnew2 : ComposeCell.forward ν simpleParams.cell
      (⟨[[ν.sigmoid (ν.sigmoid 3 + 3)], [4]], none, [3, 1]⟩ : RowState).leftSlice
      (⟨[[ν.sigmoid (ν.sigmoid 3 + 3)], [4]], none, [3, 1]⟩ : RowState).rightSlice
      = ⟨[[ν.sigmoid (ν.sigmoid (ν.sigmoid 3 + 3) + 4)]], none, [4]⟩ := by
    show ComposeCell.forward ν (.simple sumLin) _ _ = _
    rw [cellForward_simple_def]
    simp [RowState.leftSlice, RowState.rightSlice, Linear.apply, sumLin, dot]
    norm_num
  have hst3 : rowStateAt ν simpleParams false (fun _ => []) 4 4
      ⟨[[1], [2], [3], [4]], none, [1, 1, 1, 1]⟩ 3
      = ⟨[[ν.sigmoid (ν.sigmoid (ν.sigmoid 3 + 3) + 4)]], none, [4]⟩ := by
    have hun : rowStateAt ν simpleParams false (fun _ => []) 4 4
        ⟨[[1], [2], [3], [4]], none, [1, 1, 1, 1]⟩ 3
        = (rowStep ν simpleParams false [] 4 4 2
            (rowStateAt ν simpleParams false (fun _ => []) 4 4
              ⟨[[1], [2], [3], [4]], none, [1, 1, 1, 1]⟩ 2)).1 := rfl
    rw [hun, hst2,
      rowStep_eq_last ν simpleParams false [] 4 4 2 _ (by decide),
      hnew2]
    rw [show ((sequence_mask 4 4).getD (2 + 1) false) = true from by decide]
    simp only [if_true]
    simp [update_state, vadd, smul]
  -- the recorded trace
  have h0z : rowStateAt ν simpleParams false (fun _ => []) 4 4
      ⟨[[1], [2], [3], [4]], none, [1, 1, 1, 1]⟩ 0
      = ⟨[[1], [2], [3], [4]], none, [1, 1, 1, 1]⟩ := rfl
  have htr : rowTrace ν simpleParams false (fun _ => []) 4 4
      ⟨[[1], [2], [3], [4]], none, [1, 1, 1, 1]⟩ 3
      = [[1, 0, 0], [1, 0]] := by
    have e3 : rowTrace ν simpleParams false (fun _ => []) 4 4
        ⟨[[1], [2], [3], [4]], none, [1, 1, 1, 1]⟩ 3
        = rowTrace ν simpleParams false (fun _ => []) 4 4
            ⟨[[1], [2], [3], [4]], none, [1, 1, 1, 1]⟩ 2 ++
          (rowStep ν simpleParams false [] 4 4 2
            (rowStateAt ν simpleParams false (fun _ => []) 4 4
              ⟨[[1], [2], [3], [4]], none, [1, 1, 1, 1]⟩ 2)).2.toList := rfl
    have e2 : rowTrace ν simpleParams false (fun _ => []) 4 4
        ⟨[[1], [2], [3], [4]], none, [1, 1, 1, 1]⟩ 2
        = rowTrace ν simpleParams false (fun _ => []) 4 4
            ⟨[[1], [2], [3], [4]], none, [1, 1, 1, 1]⟩ 1 ++
          (rowStep ν simpleParams false [] 4 4 1
            (rowStateAt ν simpleParams false (fun _ => []) 4 4
              ⟨[[1], [2], [3], [4]], none, [1, 1, 1, 1]⟩ 1)).2.toList := rfl
    have e1 : rowTrace ν simpleParams false (fun _ => []) 4 4
        ⟨[[1], [2], [3], [4]], none, [1, 1, 1, 1]⟩ 1
        = [] ++
          (rowStep ν simpleParams false [] 4 4 0
            (rowStateAt ν simpleParams false (fun _ => []) 4 4
              ⟨[[1], [2], [3], [4]], none, [1, 1, 1, 1]⟩ 0)).2.toList := rfl
    rw [e3, e2, e1, h0z, hst1, hst2,
      rowStep_eq_select ν simpleParams false [] 4 4 0 _ (by decide),
      rowStep_eq_select ν simpleParams false [] 4 4 1 _ (by decide),
      rowStep_eq_last ν simpleParams false [] 4 4 2 _ (by decide),
      hnew0, hnew1]
    rw [hsc0, hsc1]
    simp [Option.toList]
  rw [show (4 : ℕ) - 1 = 3 from rfl, hst3, htr]

/-- The whole run of a row of true length 1 only truncates the initial state:
it is frozen from iteration 0 on. -/
lemma rowStateAt_L1 (ν : Numerics) (p : Params) (training : Bool)
    (noise : ℕ → List ℚ) (h0 : List Vec) (c0 : Option (List Vec)) (H : ℕ)
    (hwf : ComposeCell.WF H p.cell)
    (hs0 : StateShape p.cell ⟨h0, c0, initLens 1 h0.length⟩ h0.length H) :
    ∀ i, i ≤ h0.length - 1 →
      rowStateAt ν p training noise h0.length 1
          ⟨h0, c0, initLens 1 h0.length⟩ i
        = ⟨h0.take (h0.length - i), c0.map (List.take (h0.length - i)),
           (initLens 1 h0.length).take (h0.length - i)⟩ := by
  have hclen : ∀ cs, c0 = some cs → cs.length = h0.length := by
    intro cs hcs
    have h := hs0.2.2
    rw [hcs] at h
    cases hcell : p.cell with
    | treelstm layer =>
      rw [hcell] at h
      exact (show VecsShape cs h0.length H from h).1
    | simple lin =>
      rw [hcell] at h
      exact absurd h (by simp)
  have hlenlens : (initLens 1 h0.length).length = h0.length := by
    simp [initLens, sequence_mask]
  intro i
  induction i with
  | zero =>
    intro _
    simp only [rowStateAt, Nat.sub_zero]
    rw [RowState.mk.injEq]
    refine ⟨(List.take_length h0).symm, ?_, ?_⟩
    · cases hcs : c0 with
      | none => rfl
      | some cs =>
        simp only [Option.map_some']
        rw [List.take_of_length_le (le_of_eq (hclen cs hcs))]
    · rw [List.take_of_length_le (le_of_eq hlenlens)]
  | succ i ih =>
    intro hi
    have hprev := ih (by omega)
    have hshape := rowStateAt_shape ν p training noise h0.length 1 _ H hwf hs0
      i (by omega)
    have hstep := rowStep_frozen ν p training (noise i) h0.length 1 i _
      (h0.length - i) H rfl (by omega) (by omega) (by omega) hwf hshape
    have hnext : rowStateAt ν p training noise h0.length 1
        ⟨h0, c0, initLens 1 h0.length⟩ (i + 1)
        = (rowStateAt ν p training noise h0.length 1
            ⟨h0, c0, initLens 1 h0.length⟩ i).leftSlice := by
      simpa [rowStateAt] using hstep
    rw [hnext, hprev]
    unfold RowState.leftSlice
    simp only
    rw [RowState.mk.injEq]
    refine ⟨?_, ?_, ?_⟩
    · rw [dropLast_take h0 (h0.length - i) (by omega)]
      congr 1
    · cases hcs : c0 with
      | none => rfl
      | some cs =>
        simp only [Option.map_some']
        rw [dropLast_take cs (h0.length - i) (by rw [hclen cs hcs]; omega)]
        congr 2
    · rw [dropLast_take _ (h0.length - i) (by rw [hlenlens]; omega)]
      congr 1

/-- Claim C7: degenerate length.  A row of true length 1 performs zero
effective merges: its final state is its single initial leaf (hidden, the
cell channel when present, and a span length of 1), and it does not depend on
the scorer query, the selection mode, or the noise stream — all of which are
universally quantified on the left and absent from the right-hand side.  The
second conjunct shows each batch row's output is computed from that row's own
inputs alone, so the other rows still run normally. -/
theorem claim_C7_degenerate_length (ν : Numerics) (p : Params) (training : Bool)
    (noise : ℕ → List ℚ) (h0 : List Vec) (c0 : Option (List Vec)) (H : ℕ)
    (hwf : ComposeCell.WF H p.cell)
    (hs0 : StateShape p.cell ⟨h0, c0, initLens 1 h0.length⟩ h0.length H)
    (hmd : 1 ≤ h0.length) :
    (rowForward ν p training noise h0 c0 1).1
        = ⟨h0.take 1, c0.map (List.take 1), [1]⟩ ∧
    ∀ (noises : ℕ → ℕ → List ℚ) (h0s : List (List Vec))
      (c0s : List (Option (List Vec))) (lengths : List ℕ) (b : ℕ),
      (hb : b < (forward ν p training noises h0s c0s lengths).length) →
      (hb1 : b < h0s.length) → (hb2 : b < c0s.length) →
      (hb3 : b < lengths.length) →
      (forward ν p training noises h0s c0s lengths)[b]
        = rowForward ν p training (noises b) h0s[b] c0s[b] lengths[b] := by
  constructor
  · rw [rowForward_def]
    simp only
    rw [rowStateAt_L1 ν p training noise h0 c0 H hwf hs0 (h0.length - 1)
      (le_refl _)]
    have h1 : h0.length - (h0.length - 1) = 1 := by omega
    rw [h1]
    rw [RowState.mk.injEq]
    refine ⟨rfl, rfl, ?_⟩
    rw [initLens_eq 1 h0.length (by omega)]
    simp [List.replicate_succ]
  · intro noises h0s c0s lengths b hb hb1 hb2 hb3
    exact forward_get ν p training noises h0s c0s lengths b hb hb1 hb2 hb3

/-- Witness for claim C7: a length-1 row in a two-slot batch returns its
single leaf unchanged. -/
theorem claim_C7_witness :
    (ComposeCell.WF 1 simpleParams.cell ∧
      StateShape simpleParams.cell
        ⟨[[5], [2]], none, initLens 1 ([[(5 : ℚ)], [2]] : List Vec).length⟩
        ([[(5 : ℚ)], [2]] : List Vec).length 1 ∧
      1 ≤ ([[(5 : ℚ)], [2]] : List Vec).length) ∧
    (rowForward idNumerics simpleParams false (fun _ => []) [[5], [2]]
        none 1).1
      = ⟨([[(5 : ℚ)], [2]] : List Vec).take 1, none.map (List.take 1), [1]⟩ :=
  ⟨⟨⟨rfl, rfl⟩, ⟨⟨rfl, by decide⟩, rfl, trivial⟩, by decide⟩,
   (claim_C7_degenerate_length idNumerics simpleParams false (fun _ => [])
     [[5], [2]] none 1 ⟨rfl, rfl⟩ ⟨⟨rfl, by decide⟩, rfl, trivial⟩
     (by decide)).1⟩

/-- The full per-row result of the greedy path is independent of the noise
stream. -/
lemma rowForward_noise_indep (ν : Numerics) (p : Params)
    (noise1 noise2 : ℕ → List ℚ) (h0 : List Vec) (c0 : Option (List Vec))
    (L : ℕ) :
    rowForward ν p false noise1 h0 c0 L = rowForward ν p false noise2 h0 c0 L := by
  rw [rowForward_def, rowForward_def,
    rowStateAt_noise_indep ν p noise1 noise2 h0.length L
      ⟨h0, c0, initLens L h0.length⟩ (h0.length - 1),
    rowTrace_noise_indep ν p noise1 noise2 h0.length L
      ⟨h0, c0, initLens L h0.length⟩ (h0.length - 1)]

/-- Claim C8: greedy determinism.  In greedy (non-training) mode the engine
reads nothing from the randomness stream: two runs on identical inputs, true
lengths and learned parameters — with arbitrary, possibly different, noise —
produce identical selection masks at every iteration and identical final
states.  Since the embedding is a pure function of its arguments, this is
exactly the statement that repeated greedy runs coincide. -/
theorem claim_C8_greedy_determinism (ν : Numerics) (p : Params)
    (noises1 noises2 : ℕ → ℕ → List ℚ) (h0s : List (List Vec))
    (c0s : List (Option (List Vec))) (lengths : List ℕ) :
    forward ν p false noises1 h0s c0s lengths
      = forward ν p false noises2 h0s c0s lengths := by
  unfold forward
  apply List.map_congr_left
  intro bi _
  exact rowForward_noise_indep ν p (noises1 bi.1) (noises2 bi.1)
    bi.2.1 bi.2.2.1 bi.2.2.2

/-- Claim C9: NaN score handling.  With debug mode on, a NaN among the
computed candidate scores makes `select_composition` abort the forward pass
with a fatal error; with debug mode off the scorer never raises — the checked
computation returns `ok` with the ordinary result for every input. -/
theorem claim_C9_nan_guard (debug : Bool) (isnan : ℚ → Bool) (query : Vec)
    (training : Bool) (temperature : ℚ) (uw : Bool) (base : ℚ) (nz : List ℚ)
    (mask : List Bool) (old_state new_state : RowState) :
    (debug = true → (dot_nd query new_state.h).any isnan = true →
      select_composition_checked debug isnan query training temperature uw base
        nz mask old_state new_state = Except.error "nan in comp_weights") ∧
    (debug = false →
      select_composition_checked debug isnan query training temperature uw base
        nz mask old_state new_state
        = Except.ok (select_composition query training temperature uw base nz
            mask old_state new_state)) := by
  constructor
  · intro hd hn
    simp [select_composition_checked, hd, hn]
  · intro hd
    simp [select_composition_checked, hd]

/-- Witness for claim C9: a concrete NaN-flagged run aborts in debug mode and
returns `ok` with debug off. -/
theorem claim_C9_witness :
    (true = true ∧
      (dot_nd [1] (RowState.mk [[1]] none [1]).h).any (fun _ => true) = true ∧
      select_composition_checked true (fun _ => true) [1] false 1 false 0 []
          [] ⟨[[1], [2]], none, [1, 1]⟩ ⟨[[1]], none, [1]⟩
        = Except.error "nan in comp_weights") ∧
    (select_composition_checked false (fun _ => true) [1] false 1 false 0 []
        [] ⟨[[1], [2]], none, [1, 1]⟩ ⟨[[1]], none, [1]⟩
      = Except.ok (select_composition [1] false 1 false 0 [] []
          ⟨[[1], [2]], none, [1, 1]⟩ ⟨[[1]], none, [1]⟩)) :=
  ⟨⟨rfl, by decide,
    (claim_C9_nan_guard true (fun _ => true) [1] false 1 false 0 [] []
      ⟨[[1], [2]], none, [1, 1]⟩ ⟨[[1]], none, [1]⟩).1 rfl (by decide)⟩,
   (claim_C9_nan_guard false (fun _ => true) [1] false 1 false 0 [] []
     ⟨[[1], [2]], none, [1, 1]⟩ ⟨[[1]], none, [1]⟩).2 rfl⟩

/-- Claim C10: the Scorer and Selection Policy run only while more than one
merge option remains.  The iteration at `i = max_length - 2` composes the one
remaining pair directly and records nothing, so the per-row composition trace
holds exactly `max_length - 2` selection masks — one fewer than the
`max_length - 1` merge iterations performed. -/
theorem claim_C10_trace_entries (ν : Numerics) (p : Params) (training : Bool)
    (noise : ℕ → List ℚ) (h0 : List Vec) (c0 : Option (List Vec)) (L : ℕ)
    (hmd : 2 ≤ h0.length) :
    (rowForward ν p training noise h0 c0 L).2.length = h0.length - 2 ∧
    ∀ s : RowState,
      (rowStep ν p training (noise (h0.length - 2)) h0.length L
        (h0.length - 2) s).2 = none := by
  constructor
  · rw [rowForward_def]
    simp only
    rw [rowTrace_length ν p training noise h0.length L _ (h0.length - 1)]
    omega
  · intro s
    rw [rowStep_eq_last ν p training (noise (h0.length - 2)) h0.length L
      (h0.length - 2) s (by omega)]

/-- Witness for claim C10: four leaves yield a two-entry trace. -/
theorem claim_C10_witness :
    2 ≤ ([[(1 : ℚ)], [2], [3], [4]] : List Vec).length ∧
    (rowForward idNumerics simpleParams false (fun _ => [])
        [[1], [2], [3], [4]] none 4).2.length
      = ([[(1 : ℚ)], [2], [3], [4]] : List Vec).length - 2 :=
  ⟨by decide,
   (claim_C10_trace_entries idNumerics simpleParams false (fun _ => [])
     [[1], [2], [3], [4]] none 4 (by decide)).1⟩

/-- The cell channel of the gated cell, written out. -/
lemma cell_snd (layer : BinaryTreeLSTMLayer) (ν : Numerics) (hl hr cl cr : Vec) :
    (layer.cell ν hl hr cl cr).2
      = vadd (vadd
          (List.zipWith (fun cx f => cx * ν.sigmoid (f + 1)) cl
            (((layer.comp_linear.apply (hl ++ hr)).drop
              layer.hidden_dim).take layer.hidden_dim))
          (List.zipWith (fun cx f => cx * ν.sigmoid (f + 1)) cr
            (((layer.comp_linear.apply (hl ++ hr)).drop
              (2 * layer.hidden_dim)).take layer.hidden_dim)))
        (List.zipWith (fun ux ix => ν.tanh ux * ν.sigmoid ix)
          (((layer.comp_linear.apply (hl ++ hr)).drop
            (3 * layer.hidden_dim)).take layer.hidden_dim)
          ((layer.comp_linear.apply (hl ++ hr)).take layer.hidden_dim)) := rfl

/-- The hidden channel of the gated cell, written out. -/
lemma cell_fst (layer : BinaryTreeLSTMLayer) (ν : Numerics) (hl hr cl cr : Vec) :
    (layer.cell ν hl hr cl cr).1
      = List.zipWith (fun ox cx => ν.sigmoid ox * ν.tanh cx)
          (((layer.comp_linear.apply (hl ++ hr)).drop
            (4 * layer.hidden_dim)).take layer.hidden_dim)
          (layer.cell ν hl hr cl cr).2 := rfl

/-- Claim C6: gated compose cell formula.  The gated variant concatenates the
two hidden states (size `2H`), applies the one learned affine transform to
size `5H`, splits the image into five `H`-sized chunks — input gate `i` at
offset 0, left forget `fl` at `H`, right forget `fr` at `2H`, update `u` at
`3H`, output gate `o` at `4H` — and returns, per coordinate,
`cell = l.cell * sigmoid(fl + 1) + r.cell * sigmoid(fr + 1)
+ tanh(u) * sigmoid(i)` and `hidden = sigmoid(o) * tanh(cell)`; the parent
span length is `l.span_length + r.span_length` at every position.  The cell
is a pure function of its arguments by construction. -/
theorem claim_C6_gated_cell (ν : Numerics) (layer : BinaryTreeLSTMLayer)
    (H : ℕ) (hdim : layer.hidden_dim = H)
    (hw : layer.comp_linear.weight.length = 5 * H)
    (hb : layer.comp_linear.bias.length = 5 * H)
    (hl hr cl cr : Vec) (hcl : cl.length = H) (hcr : cr.length = H)
    (k : ℕ) (hk : k < H) :
    (layer.comp_linear.apply (hl ++ hr)).length = 5 * H ∧
    (layer.cell ν hl hr cl cr).2.getD k 0
      = cl.getD k 0 * ν.sigmoid
            ((layer.comp_linear.apply (hl ++ hr)).getD (H + k) 0 + 1)
        + cr.getD k 0 * ν.sigmoid
            ((layer.comp_linear.apply (hl ++ hr)).getD (2 * H + k) 0 + 1)
        + ν.tanh ((layer.comp_linear.apply (hl ++ hr)).getD (3 * H + k) 0)
          * ν.sigmoid ((layer.comp_linear.apply (hl ++ hr)).getD k 0) ∧
    (layer.cell ν hl hr cl cr).1.getD k 0
      = ν.sigmoid ((layer.comp_linear.apply (hl ++ hr)).getD (4 * H + k) 0)
        * ν.tanh ((layer.cell ν hl hr cl cr).2.getD k 0) ∧
    ∀ (lrow rrow : RowState) (j : ℕ), j < lrow.lens.length →
      j < rrow.lens.length →
      (ComposeCell.forward ν (.treelstm layer) lrow rrow).lens.getD j 0
        = lrow.lens.getD j 0 + rrow.lens.getD j 0 := by
  subst hdim
  have hv : (layer.comp_linear.apply (hl ++ hr)).length
      = 5 * layer.hidden_dim := by
    rw [length_linear_apply, hw, hb, min_self]
  have hcell := treelstm_cell_shapes layer ν hl hr cl cr layer.hidden_dim rfl
    hw hb hcl hcr
  have hkc : k < (layer.cell ν hl hr cl cr).2.length := by rw [hcell.2]; omega
  have hkh : k < (layer.cell ν hl hr cl cr).1.length := by rw [hcell.1]; omega
  have hkcl : k < cl.length := by omega
  have hkcr : k < cr.length := by omega
  have hkv0 : k < (layer.comp_linear.apply (hl ++ hr)).length := by
    rw [hv]; omega
  have hkv1 : layer.hidden_dim + k
      < (layer.comp_linear.apply (hl ++ hr)).length := by
    rw [hv]; omega
  have hkv2 : 2 * layer.hidden_dim + k
      < (layer.comp_linear.apply (hl ++ hr)).length := by
    rw [hv]; omega
  have hkv3 : 3 * layer.hidden_dim + k
      < (layer.comp_linear.apply (hl ++ hr)).length := by
    rw [hv]; omega
  have hkv4 : 4 * layer.hidden_dim + k
      < (layer.comp_linear.apply (hl ++ hr)).length := by
    rw [hv]; omega
  refine ⟨hv, ?_, ?_, ?_⟩
  · rw [List.getD_eq_getElem _ _ hkc, List.getD_eq_getElem _ _ hkcl,
      List.getD_eq_getElem _ _ hkcr, List.getD_eq_getElem _ _ hkv1,
      List.getD_eq_getElem _ _ hkv2, List.getD_eq_getElem _ _ hkv3,
      List.getD_eq_getElem _ _ hkv0]
    rw [List.getElem_of_eq (cell_snd layer ν hl hr cl cr) hkc]
    simp only [vadd, List.getElem_zipWith, List.getElem_take,
      List.getElem_drop]
  · rw [List.getD_eq_getElem _ _ hkh, List.getD_eq_getElem _ _ hkv4,
      List.getD_eq_getElem _ _ hkc]
    rw [List.getElem_of_eq (cell_fst layer ν hl hr cl cr) hkh]
    simp only [List.getElem_zipWith, List.getElem_take, List.getElem_drop]
  · intro lrow rrow j hj1 hj2
    rw [cellForward_treelstm_def]
    simp only
    have hjz : j < (List.zipWith (fun x y => x + y) lrow.lens
        rrow.lens).length := by
      rw [List.length_zipWith]
      omega
    rw [List.getD_eq_getElem _ _ hjz, List.getD_eq_getElem _ _ hj1,
      List.getD_eq_getElem _ _ hj2, List.getElem_zipWith]

/-- Witness for claim C6 at the concrete `H = 1` gated cell. -/
theorem claim_C6_witness :
    (tinyTreeLayer.hidden_dim = 1 ∧
      tinyTreeLayer.comp_linear.weight.length = 5 * 1 ∧
      tinyTreeLayer.comp_linear.bias.length = 5 * 1 ∧
      ([(1 : ℚ)] : Vec).length = 1 ∧ (0 : ℕ) < 1) ∧
    (tinyTreeLayer.cell idNumerics [2] [3] [1] [1]).2.getD 0 0
      = ([(1 : ℚ)] : Vec).getD 0 0 * idNumerics.sigmoid
            ((tinyTreeLayer.comp_linear.apply ([2] ++ [3])).getD (1 + 0) 0 + 1)
        + ([(1 : ℚ)] : Vec).getD 0 0 * idNumerics.sigmoid
            ((tinyTreeLayer.comp_linear.apply ([2] ++ [3])).getD (2 * 1 + 0) 0 + 1)
        + idNumerics.tanh
            ((tinyTreeLayer.comp_linear.apply ([2] ++ [3])).getD (3 * 1 + 0) 0)
          * idNumerics.sigmoid
            ((tinyTreeLayer.comp_linear.apply ([2] ++ [3])).getD 0 0) :=
  ⟨⟨rfl, rfl, rfl, rfl, by decide⟩,
   (claim_C6_gated_cell idNumerics tinyTreeLayer 1 rfl rfl rfl [2] [3] [1] [1]
     rfl rfl 0 (by decide)).2.1⟩

end TreeLstm
